import Mathlib

/-! # MyShell (`mysh.c`): a shallow embedding and its properties

The embedding follows `src/mysh.c` function by function.

* A C string is the list of its characters before the terminating NUL.
* The line buffer `input` is a list of characters that contains the NUL
  terminators; a `char *` into it is an offset.
* The argument array `char *args[MAX_ARGS]` is the list of its initialised
  slots, `none` standing for `NULL`.  A read outside the initialised part, or
  a write outside the array, is undefined behaviour in C and makes the
  embedded function return `none`.
* System calls are answered by an oracle (`OS`); every call made is recorded
  as an event tagged with the process that makes it.
-/

namespace MySh

/-! ## Data model -/

/-- The characters of a NUL-terminated C string, terminator excluded. -/
abbrev CStr := List Char

/-- The string terminator. -/
abbrev NUL : Char := Char.ofNat 0

/-- The newline character. -/
abbrev NL : Char := Char.ofNat 10

/-- The horizontal tab character. -/
abbrev TAB : Char := Char.ofNat 9

/-- Size of the argument array: `#define MAX_ARGS 100`. -/
def MAX_ARGS : Nat := 100

/-- Number of rows of `commands[10][MAX_ARGS]` in `handle_pipe`. -/
def MAX_STAGES : Nat := 10

/-- Initialised slots of a `char *[MAX_ARGS]` array; `none` is `NULL`. -/
abbrev Argv := List (Option CStr)

/-- The array that holds the given tokens followed by the `NULL` terminator. -/
def mkArgs (toks : List CStr) : Argv := toks.map some ++ [none]

/-- The vector a callee sees: the entries before the first `NULL`. -/
def argvOf : Argv → List CStr
  | some a :: rest => a :: argvOf rest
  | _ => []

/-- Write `args[i] = v`.  Inside the initialised part the slot is replaced;
the first uninitialised slot may be written while it lies inside the array. -/
def store (args : Argv) (i : Nat) (v : Option CStr) : Option Argv :=
  if i < args.length then some (args.set i v)
  else if i = args.length ∧ i < MAX_ARGS then some (args ++ [v])
  else none

/-- The four entries of `builtin_commands`, in table order. -/
inductive Builtin
  | cd
  | pwd
  | exit
  | which
  deriving DecidableEq

/-- The name stored in `builtin_commands` for a handler. -/
def Builtin.name : Builtin → CStr
  | .cd => "cd".toList
  | .pwd => "pwd".toList
  | .exit => "exit".toList
  | .which => "which".toList

/-- The table `builtin_commands`. -/
def builtin_commands : List Builtin := [.cd, .pwd, .exit, .which]

/-- Status delivered by `waitpid` (no `WUNTRACED`): the child either exited
(`WIFEXITED`, `WEXITSTATUS`) or was killed by a signal (`WIFSIGNALED`,
`WTERMSIG`). -/
inductive WaitStatus
  | exited (code : Nat)
  | signaled (sig : Nat)
  deriving DecidableEq

/-- Result of `glob(pattern, 0, NULL, &g)`: return value 0 with `gl_pathv`,
`GLOB_NOMATCH`, or another error code. -/
inductive GlobRet
  | matched (paths : List CStr)
  | noMatch
  | failed
  deriving DecidableEq

/-- Flags given to `open`. -/
inductive OFlag
  | O_RDONLY
  | O_WRONLY
  | O_CREAT
  | O_TRUNC
  deriving DecidableEq

/-- File descriptors the shell manipulates. -/
inductive Fd
  | opened (path : CStr)
  | pipeRd (k : Nat)
  | pipeWr (k : Nat)
  | indeterminate
  deriving DecidableEq

/-- A process: the shell itself, the child forked by `execute_command`, or
the child forked for stage `k` by `handle_pipe`. -/
inductive Proc
  | shell
  | child
  | stage (k : Nat)
  deriving DecidableEq

/-- Observable actions.  `call` marks the entry into a built-in handler. -/
inductive Ev
  | call (b : Builtin) (argv : List CStr)
  | printf (text : String)
  | eprintf (text : String)
  | perror (text : String)
  | fflush
  | chdir (path : CStr)
  | getcwd
  | access (path : CStr)
  | exit (code : Nat)
  | fork
  | waitpid
  | pipe
  | glob (pattern : CStr)
  | openFile (path : CStr) (flags : List OFlag) (mode : Option Nat)
  | dup2 (fd : Fd) (onto : Nat)
  | close (fd : Fd)
  | execvp (file : Option CStr) (argv : List CStr)
  deriving DecidableEq

/-- Events in program order, each with the process performing it. -/
abbrev Trace := List (Proc × Ev)

/-- Answers of the operating system to the calls the shell makes. -/
structure OS where
  /-- Whether `chdir(path)` returns 0. -/
  chdir : CStr → Bool
  /-- The directory `getcwd` stores, or `none` when it returns `NULL`. -/
  getcwd : Option CStr
  /-- Whether `access(path, F_OK)` returns 0. -/
  access : CStr → Bool
  /-- The outcome of `glob` on a pattern. -/
  glob : CStr → GlobRet
  /-- Whether `open(path, O_RDONLY)` yields a descriptor. -/
  openRd : CStr → Bool
  /-- Whether `open(path, O_CREAT | O_TRUNC | O_WRONLY, mode)` yields one. -/
  openWr : CStr → Bool
  /-- Whether `dup2(fd, onto)` succeeds. -/
  dup2 : Fd → Nat → Bool
  /-- Whether the `pipe` call made for stage `k` succeeds. -/
  pipe : Nat → Bool
  /-- Whether the `fork` call for a process yields a child. -/
  fork : Proc → Bool
  /-- Whether the program loaded for stage `k` of a pipeline terminates while
  the shell waits for it on line 239.  It need not: at that point the next
  stage is not forked yet and the shell still holds the read end of the pipe,
  so a stage that writes more than the pipe holds, or never stops, stays. -/
  stage_exits : Nat → Bool
  /-- Outcome of `execvp(file, argv)`: `none` when it returns -1, otherwise
  the status with which the loaded program terminates. -/
  execvp : Option CStr → List CStr → Option WaitStatus

/-! ## Tokenizer (`main`, lines 260-274) -/

/-- The C string that starts at offset `p` of the buffer. -/
def cstrAt (buf : List Char) (p : Nat) : CStr :=
  (buf.drop p).takeWhile (fun c => c != NUL)

/-- Value of `strcspn(input, "\n")`. -/
def strcspn_nl (buf : List Char) : Nat :=
  ((cstrAt buf 0).takeWhile (fun c => c != NL)).length

/-- Value of `strspn(s, " ")` for `s` at offset `p`. -/
def strspn_sp (buf : List Char) (p : Nat) : Nat :=
  ((cstrAt buf p).takeWhile (fun c => c == ' ')).length

/-- Value of `strcspn(s, " ")` for `s` at offset `p`. -/
def strcspn_sp (buf : List Char) (p : Nat) : Nat :=
  ((cstrAt buf p).takeWhile (fun c => c != ' ')).length

/-- One call of `strtok(_, " ")` resuming at the saved offset `olds`: skip
delimiters; at the terminator return `NULL`; otherwise the token starts here,
and the delimiter that ends it (if any) is overwritten with NUL.  The result is
the returned pointer, the buffer, and the new saved offset. -/
def strtok (buf : List Char) (olds : Nat) : Option Nat × List Char × Nat :=
  let s := olds + strspn_sp buf olds
  if buf.getD s NUL = NUL then (none, buf, s)
  else
    let e := s + strcspn_sp buf s
    if buf.getD e NUL = NUL then (some s, buf, e)
    else (some s, buf.set e NUL, e + 1)

/-- The loop `while (token != NULL) { args[i++] = token; token = strtok(NULL, " "); }`
together with the first `strtok` call; `acc` holds the pointers stored so far. -/
def tokLoop : Nat → List Char → Nat → List Nat → List Char × List Nat
  | 0, buf, _, acc => (buf, acc)
  | fuel + 1, buf, olds, acc =>
    match strtok buf olds with
    | (none, buf1, _) => (buf1, acc)
    | (some tok, buf1, olds1) => tokLoop fuel buf1 olds1 (acc ++ [tok])

/-- The buffer after `fgets` stored `line`, and after
`input[strcspn(input, "\n")] = 0`. -/
def chomp (line : List Char) : List Char :=
  (line ++ [NUL]).set (strcspn_nl (line ++ [NUL])) NUL

/-- Lines 260-269: the buffer as the tokenizer leaves it, and the pointers
stored in `args`. -/
def scan (line : List Char) : List Char × List Nat :=
  tokLoop (chomp line).length (chomp line) 0 []

/-- The buffer `input` after tokenizing. -/
def inputAfter (line : List Char) : List Char := (scan line).1

/-- The strings the stored pointers designate once tokenizing is over. -/
def tokens (line : List Char) : List CStr :=
  (scan line).2.map (cstrAt (inputAfter line))

/-! ## Built-in handlers (lines 16-62) -/

/-- The function `cd_command`. -/
def cd_command (os : OS) (argv : List CStr) : List Ev :=
  match argv[1]? with
  | none => [.eprintf "mysh: expected argument to \"cd\"\n"]
  | some path => if os.chdir path then [.chdir path] else [.chdir path, .perror "mysh"]

/-- The function `pwd_command`. -/
def pwd_command (os : OS) (_argv : List CStr) : List Ev :=
  match os.getcwd with
  | some cwd => [.getcwd, .printf (String.mk cwd ++ "\n")]
  | none => [.getcwd, .perror "mysh"]

/-- The function `exit_command`; it ends the calling process with `exit(0)`. -/
def exit_command (argv : List CStr) : List Ev :=
  match argv[1]? with
  | some _ =>
    [.printf "Exiting my shell: "] ++ (argv.drop 1).map (fun a => Ev.printf (String.mk a ++ " "))
      ++ [.printf "\n", .exit 0]
  | none => [.printf "Exiting my shell\n", .exit 0]

/-- The directories searched by `which_command`, in order. -/
def which_paths : List CStr := ["/usr/local/bin".toList, "/usr/bin".toList, "/bin".toList]

/-- The loop of `which_command` over the remaining directories; `snprintf`
keeps at most 1023 characters of the joined path. -/
def which_search (os : OS) (name : CStr) : List CStr → List Ev
  | [] => [.printf ("mysh: " ++ String.mk name ++ ": command not found\n")]
  | dir :: dirs =>
    let path := (dir ++ '/' :: name).take 1023
    if os.access path then [.access path, .printf (String.mk path ++ "\n")]
    else .access path :: which_search os name dirs

/-- The function `which_command`. -/
def which_command (os : OS) (argv : List CStr) : List Ev :=
  match argv[1]? with
  | none => [.eprintf "mysh: expected argument to \"which\"\n"]
  | some name => which_search os name which_paths

/-- The entry of `builtin_functions` for a handler, applied to `args`. -/
def builtin_functions (os : OS) (b : Builtin) (argv : List CStr) : List Ev :=
  .call b argv ::
    match b with
    | .cd => cd_command os argv
    | .pwd => pwd_command os argv
    | .exit => exit_command argv
    | .which => which_command os argv

/-! ## Redirection (`handle_redirection`, lines 69-111) -/

/-- The token `<`. -/
def LT : CStr := ['<']

/-- The token `>`. -/
def GT : CStr := ['>']

/-- The loop of lines 74-83 from the current index on: the remaining slots,
`input_file` and `output_file`.  At an operator the next slot `args[i + 1]` is
captured, the operator slot becomes `NULL`, and the scan moves to `i + 1`. -/
def redir_scan : Argv → Option CStr → Option CStr → Option (Argv × Option CStr × Option CStr)
  | [], _, _ => none
  | none :: rest, inF, outF => some (none :: rest, inF, outF)
  | some a :: rest, inF, outF =>
    if a = LT then
      match rest with
      | [] => none
      | nxt :: _ => (redir_scan rest nxt outF).map (fun r => (none :: r.1, r.2))
    else if a = GT then
      match rest with
      | [] => none
      | nxt :: _ => (redir_scan rest inF nxt).map (fun r => (none :: r.1, r.2))
    else (redir_scan rest inF outF).map (fun r => (some a :: r.1, r.2))

/-- Lines 86-93: `if (input_file) ...`; the Boolean tells whether the function
goes on (`false`: it returns 0). -/
def redirect_input (os : OS) : Option CStr → Bool × List Ev
  | none => (true, [])
  | some f =>
    if os.openRd f = false then (false, [.openFile f [.O_RDONLY] none, .perror "mysh: input redirection failed"])
    else if os.dup2 (.opened f) 0 = false then
      (false, [.openFile f [.O_RDONLY] none, .dup2 (.opened f) 0, .perror "mysh: input redirection failed"])
    else (true, [.openFile f [.O_RDONLY] none, .dup2 (.opened f) 0, .close (.opened f)])

/-- Lines 96-108: `if (output_file) ...`, the inner test
`output_file == NULL` included. -/
def redirect_output (os : OS) (output_file : Option CStr) : Bool × List Ev :=
  match output_file with
  | none => (true, [])
  | some f =>
    if output_file = none then (false, [.eprintf "mysh: missing file operand\n"])
    else if os.openWr f = false then
      (false, [.openFile f [.O_CREAT, .O_TRUNC, .O_WRONLY] (some 0o640),
               .perror "mysh: output redirection failed"])
    else if os.dup2 (.opened f) 1 = false then
      (false, [.openFile f [.O_CREAT, .O_TRUNC, .O_WRONLY] (some 0o640), .dup2 (.opened f) 1,
               .perror "mysh: output redirection failed"])
    else (true, [.openFile f [.O_CREAT, .O_TRUNC, .O_WRONLY] (some 0o640), .dup2 (.opened f) 1,
                 .close (.opened f)])

/-- The function `handle_redirection`: its return value, the array as it
leaves it, and the calls it made. -/
def handle_redirection (os : OS) (args : Argv) : Option (Nat × Argv × List Ev) :=
  match redir_scan args none none with
  | none => none
  | some (args1, input_file, output_file) =>
    match redirect_input os input_file with
    | (false, evs) => some (0, args1, evs)
    | (true, evs) =>
      match redirect_output os output_file with
      | (false, evs1) => some (0, args1, evs ++ evs1)
      | (true, evs1) => some (1, args1, evs ++ evs1)

/-! ## Single command (`execute_command`, lines 113-156) -/

/-- The loop of lines 120-125: the first table entry whose name equals
`args[0]`. -/
def find_builtin (a0 : CStr) : Option Builtin :=
  builtin_commands.find? (fun b => a0 = b.name)

/-- The calls a built-in makes in a child followed by the `exit(0)` of
line 123, which `exit_command` never reaches. -/
def child_builtin (os : OS) (b : Builtin) (argv : List CStr) : List Ev :=
  builtin_functions os b argv ++ (if b = .exit then [] else [.exit 0])

/-- The child branch of `execute_command` (lines 116-136): the calls of the
child and the status its parent will collect. -/
def execute_child (os : OS) (args : Argv) : Option (List Ev × WaitStatus) :=
  match args with
  | [] => none
  | none :: _ => none
  | some a0 :: _ =>
    match find_builtin a0 with
    | some b => some (.fflush :: child_builtin os b (argvOf args), .exited 0)
    | none =>
      match handle_redirection os args with
      | none => none
      | some (0, _, evs) => some (.fflush :: evs ++ [.exit 1], .exited 1)
      | some (_, args1, evs) =>
        match args1.head? with
        | none => none
        | some file =>
          match os.execvp file (argvOf args1) with
          | some st => some (.fflush :: evs ++ [.execvp file (argvOf args1)], st)
          | none =>
            some (.fflush :: evs ++ [.execvp file (argvOf args1), .perror "execvp failed", .exit 1],
                  .exited 1)

/-- The status report of lines 144-152. -/
def report_status : WaitStatus → List Ev
  | .exited code =>
    (if code ≠ 0 then [.printf ("mysh: Command failed with code " ++ toString code ++ "\n")] else [])
      ++ [.printf "\n", .fflush]
  | .signaled sig =>
    [.printf ("mysh: Command terminated by signal " ++ toString sig ++ "\n"), .printf "\n", .fflush]

/-- The function `execute_command`. -/
def execute_command (os : OS) (args : Argv) : Option Trace :=
  if os.fork .child = false then some [(.shell, .fork), (.shell, .perror "Fork failed")]
  else
    match execute_child os args with
    | none => none
    | some (evs, st) =>
      some ((.shell, .fork) :: evs.map (fun e => (Proc.child, e))
        ++ (.shell, .waitpid) :: (report_status st).map (fun e => (Proc.shell, e)))

/-! ## Wildcards (`expand_wildcards`, lines 159-185) -/

/-- The loop of lines 167-172 from `args[i]` on: each remaining match is
stored in the next slot, then `NULL` after the last one. -/
def store_matches (args : Argv) (i : Nat) : List CStr → Option Argv
  | [] => store args i none
  | m :: ms => (store args i (some m)).bind (fun args1 => store_matches args1 (i + 1) ms)

/-- The `for` loop of `expand_wildcards` from index `i` on: the return value,
the array and the calls made.  The index grows at every turn and never leaves
the array, so `MAX_ARGS + 1` turns are enough. -/
def expand_loop (os : OS) : Nat → Nat → Argv → List Ev → Option (Nat × Argv × List Ev)
  | 0, _, _, _ => none
  | fuel + 1, i, args, evs =>
    match args[i]? with
    | none => none
    | some none => some (1, args, evs)
    | some (some a) =>
      if '*' ∈ a then
        match os.glob a with
        | .matched paths =>
          match store_matches args i paths with
          | none => none
          | some args1 => expand_loop os fuel (i + 1) args1 (evs ++ [.glob a])
        | .noMatch => expand_loop os fuel (i + 1) (args.set i (some a)) (evs ++ [.glob a])
        | .failed => some (0, args, evs ++ [.glob a, .perror "glob"])
      else expand_loop os fuel (i + 1) args evs

/-- The function `expand_wildcards`. -/
def expand_wildcards (os : OS) (args : Argv) : Option (Nat × Argv × List Ev) :=
  expand_loop os (MAX_ARGS + 1) 0 args []

/-! ## Pipelines (`handle_pipe`, lines 188-244) -/

/-- The token `|`. -/
def BAR : CStr := ['|']

/-- The loop of lines 194-204 from the current index on.  `done` holds the
rows `commands[0 .. pipe_count - 1]` and `cur` the row being filled, so
`pipe_count = done.length` and `j = cur.length`; a write outside
`commands[10][MAX_ARGS]` is undefined. -/
def pipe_split : Argv → List (List CStr) → List CStr → Option (List (List CStr))
  | [], _, _ => none
  | none :: _, done, cur => if cur.length < MAX_ARGS then some (done ++ [cur]) else none
  | some a :: rest, done, cur =>
    if a = BAR then
      if cur.length < MAX_ARGS ∧ done.length + 1 < MAX_STAGES then pipe_split rest (done ++ [cur]) []
      else none
    else if cur.length < MAX_ARGS then pipe_split rest done (cur ++ [a])
    else none

/-- The child branch of lines 214-232 for stage `k`. -/
def stage_child (os : OS) (pipe_count k : Nat) (cmd : List CStr) (pipefd : Fd × Fd)
    (prev_pipe_read : Option Fd) : List Ev :=
  (match prev_pipe_read with
    | some fd => [.dup2 fd 0, .close fd]
    | none => [])
  ++ (if k < pipe_count then [.dup2 pipefd.2 1, .close pipefd.2] else [])
  ++ [.close pipefd.1, .execvp cmd.head? cmd]
  ++ (if (os.execvp cmd.head? cmd).isNone then [.perror "execvp failed", .exit 1] else [])

/-- The parent branch of lines 233-240 for a stage. -/
def stage_parent (pipefd : Fd × Fd) (prev_pipe_read : Option Fd) : List Ev :=
  (match prev_pipe_read with
    | some fd => [.close fd]
    | none => [])
  ++ [.close pipefd.2, .waitpid]

/-- How a call of `handle_pipe` ends: it returns a value, or it stays in the
`waitpid` of line 239 because the stage waited for does not terminate. -/
inductive PipeEnd
  | returned (value : Nat)
  | waiting
  deriving DecidableEq

/-- Whether the `waitpid` of line 239 for stage `k` returns: it does when no
child was forked (the call fails at once), when the child left through
`exit(1)` after a failed `execvp`, and otherwise when the loaded program
terminates. -/
def wait_returns (os : OS) (k : Nat) (cmd : List CStr) : Bool :=
  !os.fork (.stage k) || (os.execvp cmd.head? cmd).isNone || os.stage_exits k

/-- The loop of lines 207-241 over the stages `k, k + 1, ..`: how
`handle_pipe` ends and the calls made.  The wait for a stage is part of the
turn of the loop that forks it, so the next stage is forked only after the
wait has returned. -/
def pipe_run (os : OS) (pipe_count : Nat) :
    List (List CStr) → Nat → Fd × Fd → Option Fd → PipeEnd × Trace
  | [], _, _, _ => (.returned 1, [])
  | cmd :: cmds, k, pipefd, prev =>
    if k < pipe_count ∧ os.pipe k = false then
      (.returned 0, [(.shell, .pipe), (.shell, .perror "pipe failed")])
    else
      let pipefd1 := if k < pipe_count then (Fd.pipeRd k, Fd.pipeWr k) else pipefd
      let turn : Trace :=
        (if k < pipe_count then [(Proc.shell, Ev.pipe)] else [])
        ++ (Proc.shell, Ev.fork) ::
          (if os.fork (.stage k) then
            (stage_child os pipe_count k cmd pipefd1 prev).map (fun e => (Proc.stage k, e))
           else [])
        ++ (stage_parent pipefd1 prev).map (fun e => (Proc.shell, e))
      if wait_returns os k cmd then
        let rest := pipe_run os pipe_count cmds (k + 1) pipefd1 (some pipefd1.1)
        (rest.1, turn ++ rest.2)
      else (.waiting, turn)

/-- The function `handle_pipe`. -/
def handle_pipe (os : OS) (args : Argv) : Option (PipeEnd × Trace) :=
  match pipe_split args [] [] with
  | none => none
  | some commands =>
    some (pipe_run os (commands.length - 1) commands 0 (.indeterminate, .indeterminate) none)

/-! ## The read-eval loop (`main`, lines 260-293) -/

/-- The statement `main` selects for a line. -/
inductive Branch
  | continue_
  | builtin (b : Builtin) (argv : List CStr)
  | handle_pipe (args : Argv)
  | expand_then_execute (args : Argv)
  deriving DecidableEq

/-- Lines 260-293 up to the choice of the callee.  Storing `MAX_ARGS` or more
tokens and the terminator overruns `args`. -/
def main_select (line : List Char) : Option Branch :=
  if MAX_ARGS ≤ (tokens line).length then none
  else
    match tokens line with
    | [] => some .continue_
    | a0 :: toks =>
      if a0 = "exit".toList then some (.builtin .exit (a0 :: toks))
      else if a0 = "cd".toList then some (.builtin .cd (a0 :: toks))
      else if a0 = "pwd".toList then some (.builtin .pwd (a0 :: toks))
      else if a0 = "which".toList then some (.builtin .which (a0 :: toks))
      else if '|' ∈ cstrAt (inputAfter line) 0 then some (.handle_pipe (mkArgs (a0 :: toks)))
      else some (.expand_then_execute (mkArgs (a0 :: toks)))

/-- One turn of the loop of `main` after `fgets` stored `line`: the calls made
(all of them when `handle_pipe` stays in a wait); the value returned by
`expand_wildcards` is dropped, as on line 290. -/
def main_iter (os : OS) (line : List Char) : Option Trace :=
  match main_select line with
  | none => none
  | some .continue_ => some []
  | some (.builtin b argv) => some ((builtin_functions os b argv).map (fun e => (Proc.shell, e)))
  | some (.handle_pipe args) => (handle_pipe os args).map (fun r => r.2)
  | some (.expand_then_execute args) =>
    match expand_wildcards os args with
    | none => none
    | some (_, args1, evs) =>
      (execute_command os args1).map (fun tr => evs.map (fun e => (Proc.shell, e)) ++ tr)

/-! ## Reference notions used to state the properties -/

/-- The text of a line as C sees it: the characters before the first NUL or
newline. -/
def lineText (line : List Char) : List Char :=
  line.takeWhile (fun c => c != NUL && c != NL)

/-- The maximal runs of characters that are not separators, in order. -/
def runs (sep : Char → Bool) (s : List Char) : List (List Char) :=
  (s.splitOnP sep).filter (fun t => t ≠ [])

/-- White space in the sense of the specification: space or tab. -/
def isWhite (c : Char) : Bool := c == ' ' || c == TAB

/-- The leading spaces of a text followed by its first run of non-space
characters. -/
def firstChunk (s : List Char) : List Char :=
  s.takeWhile (fun c => c == ' ') ++ (s.dropWhile (fun c => c == ' ')).takeWhile (fun c => c != ' ')

/-- Whether a token is one of the operators `<` and `>`. -/
def isRedir (a : CStr) : Bool := a = LT || a = GT

/-- The vector the specification describes for redirection: every operator
and the token that follows it are removed, all other tokens are kept. -/
def strip_redirections : List CStr → List CStr
  | [] => []
  | [a] => if isRedir a then [] else [a]
  | a :: b :: rest =>
    if isRedir a then strip_redirections rest else a :: strip_redirections (b :: rest)

/-- The vector the specification describes for wildcards: a token with `*`
and at least one match is replaced by its matches, every other token stays. -/
def expand_reference (os : OS) (toks : List CStr) : List CStr :=
  toks.flatMap (fun t =>
    if '*' ∈ t then
      match os.glob t with
      | .matched (p :: ps) => p :: ps
      | _ => [t]
    else [t])

/-- The `execvp` calls of a list of events, in order. -/
def exec_calls (evs : List Ev) : List (Option CStr × List CStr) :=
  evs.filterMap (fun e =>
    match e with
    | .execvp file argv => some (file, argv)
    | _ => none)

/-- The `execvp` calls of a trace with the calling process, in order. -/
def stage_execs (tr : Trace) : List (Proc × List CStr) :=
  tr.filterMap (fun pe =>
    match pe with
    | (p, .execvp _ argv) => some (p, argv)
    | _ => none)

/-- The runs of tokens that lie between `|` tokens, the `|` tokens left out. -/
def stages_of (toks : List CStr) : List (List CStr) :=
  toks.splitOnP (fun a => decide (a = BAR))

/-- The stages of a pipeline with the processes that run them, from stage
`k` on. -/
def numbered (k : Nat) : List (List CStr) → List (Proc × List CStr)
  | [] => []
  | cmd :: cmds => (Proc.stage k, cmd) :: numbered (k + 1) cmds

/-- The number of `fork` calls of a trace. -/
def fork_count (tr : Trace) : Nat := tr.countP (fun pe => pe.2 = Ev.fork)

/-- The texts the shell itself writes with `printf`, in order. -/
def shell_output (tr : Trace) : List String :=
  tr.filterMap (fun pe =>
    match pe with
    | (.shell, .printf text) => some text
    | _ => none)

/-- The report the specification describes for a wait status: a message for
a nonzero exit code or a signal, none for exit code 0, then one blank line. -/
def status_messages : WaitStatus → List String
  | .exited 0 => ["\n"]
  | .exited code => ["mysh: Command failed with code " ++ toString code ++ "\n", "\n"]
  | .signaled sig => ["mysh: Command terminated by signal " ++ toString sig ++ "\n", "\n"]

/-- Whether an event is the entry into a built-in handler. -/
def isCall : Ev → Bool
  | .call _ _ => true
  | _ => false

/-- Whether an event creates a process or loads a program. -/
def isSpawn : Ev → Bool
  | .fork => true
  | .execvp _ _ => true
  | _ => false

/-- Whether bit `k` of a permission mode is set. -/
def mode_bit (mode k : Nat) : Bool := mode / 2 ^ k % 2 = 1

/-- Owner read, owner write, group read, group write, others read, others
write, and the three execute bits of a mode (`S_IRUSR` is bit 8, `S_IXOTH`
bit 0). -/
structure Perm where
  ownerR : Bool
  ownerW : Bool
  ownerX : Bool
  groupR : Bool
  groupW : Bool
  groupX : Bool
  otherR : Bool
  otherW : Bool
  otherX : Bool
  deriving DecidableEq

/-- The permissions a mode grants. -/
def permOf (mode : Nat) : Perm :=
  { ownerR := mode_bit mode 8, ownerW := mode_bit mode 7, ownerX := mode_bit mode 6,
    groupR := mode_bit mode 5, groupW := mode_bit mode 4, groupX := mode_bit mode 3,
    otherR := mode_bit mode 2, otherW := mode_bit mode 1, otherX := mode_bit mode 0 }

/-- A system in which every call succeeds, the directory holds `a.txt`,
`b.txt`, `c.txt` and `pwd`, the pattern `/x/*` makes `glob` fail, `false` exits
with status 1, and no program is called `x|y`. -/
def demoOS : OS where
  chdir := fun _ => true
  getcwd := some "/home".toList
  access := fun _ => true
  glob := fun pat =>
    if pat = "*.txt".toList then .matched ["a.txt".toList, "b.txt".toList, "c.txt".toList]
    else if pat = "p*".toList then .matched ["pwd".toList]
    else if pat = "/x/*".toList then .failed
    else .noMatch
  openRd := fun _ => true
  openWr := fun _ => true
  dup2 := fun _ _ => true
  pipe := fun _ => true
  fork := fun _ => true
  stage_exits := fun _ => true
  execvp := fun file _ =>
    if file = some "false".toList then some (.exited 1)
    else if file = some "x|y".toList then none
    else if file = none then none
    else some (.exited 0)

/-- The system `demoOS` except that the first stage of a pipeline does not
terminate while the shell waits for it. -/
def stuckOS : OS := { demoOS with stage_exits := fun k => decide (k ≠ 0) }

/-- The line `printf "b\na\n" | sort` as `fgets` stores it. -/
def pipeLine : List Char :=
  "printf ".toList ++ [Char.ofNat 34, 'b', Char.ofNat 92, 'n', 'a', Char.ofNat 92, 'n', Char.ofNat 34]
    ++ " | sort".toList ++ [NL]

/-- The second token of `pipeLine`. -/
def quotedArg : CStr :=
  [Char.ofNat 34, 'b', Char.ofNat 92, 'n', 'a', Char.ofNat 92, 'n', Char.ofNat 34]

/-! # Properties -/

/-! ## The tokenizer computes the runs of non-space characters -/

theorem cstrAt_mid (pre x y : List Char) (hx : ∀ c ∈ x, c ≠ NUL) :
    cstrAt (pre ++ (x ++ NUL :: y)) pre.length = x := by
  unfold cstrAt
  rw [List.drop_left, List.takeWhile_append_of_pos (by simpa using hx)]
  simp

theorem getD_mid (pre x : List Char) (d : Char) :
    (pre ++ x).getD pre.length d = x.headD d := by
  rw [List.getD_append_right _ _ _ _ (le_refl _)]
  cases x <;> simp

theorem set_mid (pre x : List Char) (c d : Char) :
    (pre ++ c :: x).set pre.length d = pre ++ d :: x := by
  rw [List.set_append_right _ _ (le_refl _)]
  simp

/-- At a run of spaces followed by the terminator `strtok` returns `NULL`. -/
theorem strtok_end (pre sp junk : List Char) (hsp : ∀ c ∈ sp, c = ' ') :
    (strtok (pre ++ (sp ++ NUL :: junk)) pre.length).1 = none ∧
    (strtok (pre ++ (sp ++ NUL :: junk)) pre.length).2.1 = pre ++ (sp ++ NUL :: junk) := by
  have hnul : ∀ c ∈ sp, c ≠ NUL := by
    intro c hc h; rw [hsp c hc] at h; exact absurd h (by decide)
  have h1 : strspn_sp (pre ++ (sp ++ NUL :: junk)) pre.length = sp.length := by
    unfold strspn_sp
    rw [cstrAt_mid _ _ _ hnul, List.takeWhile_eq_self_iff.2 (by simpa using hsp)]
  have h2 : (pre ++ (sp ++ NUL :: junk)).getD (pre.length + sp.length) NUL = NUL := by
    rw [← List.append_assoc, ← List.length_append, getD_mid]; rfl
  simp only [strtok, h1, h2, if_true, and_self]

/-- At a token followed by the terminator `strtok` returns the token and
leaves the buffer as it is. -/
theorem strtok_last (pre sp tok junk : List Char) (hsp : ∀ c ∈ sp, c = ' ')
    (htok : ∀ c ∈ tok, c ≠ ' ' ∧ c ≠ NUL) (hne : tok ≠ []) :
    strtok (pre ++ (sp ++ (tok ++ NUL :: junk))) pre.length =
      (some (pre.length + sp.length), pre ++ (sp ++ (tok ++ NUL :: junk)),
        pre.length + sp.length + tok.length) := by
  have hnul : ∀ c ∈ sp ++ tok, c ≠ NUL := by
    intro c hc h
    rcases List.mem_append.1 hc with hc | hc
    · rw [hsp c hc] at h; exact absurd h (by decide)
    · exact (htok c hc).2 h
  obtain ⟨t, ts, rfl⟩ := List.exists_cons_of_ne_nil hne
  have ht := htok t (List.mem_cons_self _ _)
  have h1 : strspn_sp (pre ++ (sp ++ (t :: ts ++ NUL :: junk))) pre.length = sp.length := by
    unfold strspn_sp
    rw [← List.append_assoc sp, cstrAt_mid _ _ _ hnul,
      List.takeWhile_append_of_pos (by simpa using hsp)]
    simp [ht.1]
  have h2 : (pre ++ (sp ++ (t :: ts ++ NUL :: junk))).getD (pre.length + sp.length) NUL = t := by
    rw [← List.append_assoc, ← List.length_append, getD_mid]; rfl
  have h3 : strcspn_sp (pre ++ (sp ++ (t :: ts ++ NUL :: junk))) (pre.length + sp.length)
      = (t :: ts).length := by
    unfold strcspn_sp
    rw [← List.append_assoc pre, ← List.length_append,
      cstrAt_mid _ _ _ (fun c hc => (htok c hc).2),
      List.takeWhile_eq_self_iff.2 (by simpa using fun c hc => (htok c hc).1)]
  have h4 : (pre ++ (sp ++ (t :: ts ++ NUL :: junk))).getD
      (pre.length + sp.length + (t :: ts).length) NUL = NUL := by
    rw [← List.append_assoc sp, ← List.append_assoc pre, ← List.append_assoc pre,
      ← List.length_append, ← List.length_append, getD_mid]; rfl
  simp only [strtok, h1, h2, h3, h4, if_true, if_neg ht.2]

/-- At a token followed by a space `strtok` returns the token, overwrites the
space with NUL and resumes after it. -/
theorem strtok_next (pre sp tok rest : List Char) (hsp : ∀ c ∈ sp, c = ' ')
    (htok : ∀ c ∈ tok, c ≠ ' ' ∧ c ≠ NUL) (hne : tok ≠ []) :
    strtok (pre ++ (sp ++ (tok ++ ' ' :: rest))) pre.length =
      (some (pre.length + sp.length), pre ++ (sp ++ (tok ++ NUL :: rest)),
        pre.length + sp.length + tok.length + 1) := by
  obtain ⟨t, ts, rfl⟩ := List.exists_cons_of_ne_nil hne
  have ht := htok t (List.mem_cons_self _ _)
  have hc1 : cstrAt (pre ++ (sp ++ (t :: ts ++ ' ' :: rest))) pre.length
      = sp ++ (t :: ts ++ ' ' :: rest.takeWhile (fun c => c != NUL)) := by
    unfold cstrAt
    rw [List.drop_left, List.takeWhile_append_of_pos (by
        intro c hc; rw [hsp c hc]; decide),
      List.takeWhile_append_of_pos (by simpa using fun c hc => (htok c hc).2)]
    rw [List.takeWhile_cons_of_pos (by decide)]
  have hc2 : cstrAt (pre ++ (sp ++ (t :: ts ++ ' ' :: rest))) (pre.length + sp.length)
      = t :: ts ++ ' ' :: rest.takeWhile (fun c => c != NUL) := by
    unfold cstrAt
    rw [← List.append_assoc pre, ← List.length_append, List.drop_left,
      List.takeWhile_append_of_pos (by simpa using fun c hc => (htok c hc).2)]
    rw [List.takeWhile_cons_of_pos (by decide)]
  have h1 : strspn_sp (pre ++ (sp ++ (t :: ts ++ ' ' :: rest))) pre.length = sp.length := by
    unfold strspn_sp
    rw [hc1, List.takeWhile_append_of_pos (by simpa using hsp)]
    simp [ht.1]
  have h2 : (pre ++ (sp ++ (t :: ts ++ ' ' :: rest))).getD (pre.length + sp.length) NUL = t := by
    rw [← List.append_assoc, ← List.length_append, getD_mid]; rfl
  have h3 : strcspn_sp (pre ++ (sp ++ (t :: ts ++ ' ' :: rest))) (pre.length + sp.length)
      = (t :: ts).length := by
    unfold strcspn_sp
    rw [hc2, List.takeWhile_append_of_pos (by simpa using fun c hc => (htok c hc).1)]
    simp
  have h4 : (pre ++ (sp ++ (t :: ts ++ ' ' :: rest))).getD
      (pre.length + sp.length + (t :: ts).length) NUL = ' ' := by
    rw [← List.append_assoc sp, ← List.append_assoc pre, ← List.append_assoc pre,
      ← List.length_append, ← List.length_append, getD_mid]; rfl
  have h5 : (pre ++ (sp ++ (t :: ts ++ ' ' :: rest))).set
      (pre.length + sp.length + (t :: ts).length) NUL = pre ++ (sp ++ (t :: ts ++ NUL :: rest)) := by
    rw [← List.append_assoc sp, ← List.append_assoc pre, ← List.append_assoc pre,
      ← List.length_append, ← List.length_append, set_mid]
    simp
  have hsn : ¬ (' ' = NUL) := by decide
  simp only [strtok, h1, h2, h3, h4, h5, if_neg ht.2, if_neg hsn]

theorem runs_nil (sep : Char → Bool) : runs sep [] = [] := by
  simp [runs, List.splitOnP_nil]

theorem runs_seps (sep : Char → Bool) (sp x : List Char) (hsp : ∀ c ∈ sp, sep c = true) :
    runs sep (sp ++ x) = runs sep x := by
  induction sp with
  | nil => rfl
  | cons a sp ih =>
    have ha := hsp a (List.mem_cons_self _ _)
    have := ih (fun c hc => hsp c (List.mem_cons_of_mem _ hc))
    simp only [runs] at this ⊢
    rw [List.cons_append, List.splitOnP_cons, if_pos ha]
    simpa using this

theorem runs_single (sep : Char → Bool) (tok : List Char) (htok : ∀ c ∈ tok, ¬ sep c = true)
    (hne : tok ≠ []) : runs sep tok = [tok] := by
  simp [runs, List.splitOnP_eq_single sep tok htok, hne]

theorem runs_first (sep : Char → Bool) (tok rest : List Char) (d : Char)
    (htok : ∀ c ∈ tok, ¬ sep c = true) (hne : tok ≠ []) (hd : sep d = true) :
    runs sep (tok ++ d :: rest) = tok :: runs sep rest := by
  simp [runs, List.splitOnP_first sep tok htok d hd, hne]

/-- Every text is a run of spaces, then a run of non-space characters, then
nothing or a space and the rest. -/
theorem text_shape (s : List Char) :
    ∃ sp tok rest, s = sp ++ (tok ++ rest) ∧ (∀ c ∈ sp, c = ' ') ∧ (∀ c ∈ tok, c ≠ ' ') ∧
      (rest = [] ∨ ∃ s3, rest = ' ' :: s3) ∧ (tok = [] → rest = []) := by
  refine ⟨s.takeWhile (fun c => c == ' '),
    (s.dropWhile (fun c => c == ' ')).takeWhile (fun c => c != ' '),
    (s.dropWhile (fun c => c == ' ')).dropWhile (fun c => c != ' '), ?_, ?_, ?_, ?_, ?_⟩
  · simp
  · intro c hc; simpa using List.mem_takeWhile_imp hc
  · intro c hc; simpa using List.mem_takeWhile_imp hc
  · cases h : (s.dropWhile (fun c => c == ' ')).dropWhile (fun c => c != ' ') with
    | nil => exact Or.inl rfl
    | cons d s3 =>
      right
      have := List.head?_dropWhile_not (fun c => c != ' ') (s.dropWhile (fun c => c == ' '))
      rw [h] at this
      simp at this
      exact ⟨s3, by rw [this]⟩
  · intro h
    cases h2 : s.dropWhile (fun c => c == ' ') with
    | nil => rfl
    | cons d s3 =>
      have := List.head?_dropWhile_not (fun c => c == ' ') s
      rw [h2] at this
      rw [h2] at h
      simp at this
      simp [this] at h

theorem firstChunk_shape (sp tok rest : List Char) (hsp : ∀ c ∈ sp, c = ' ')
    (htok : ∀ c ∈ tok, c ≠ ' ') (hrest : rest = [] ∨ ∃ s3, rest = ' ' :: s3)
    (hnil : tok = [] → rest = []) : firstChunk (sp ++ (tok ++ rest)) = sp ++ tok := by
  have h1 : (sp ++ (tok ++ rest)).takeWhile (fun c => c == ' ') = sp := by
    rw [List.takeWhile_append_of_pos (by simpa using hsp)]
    cases tok with
    | nil => simp [hnil rfl]
    | cons t ts => simp [htok t (List.mem_cons_self _ _)]
  have h2 : (sp ++ (tok ++ rest)).dropWhile (fun c => c == ' ') = tok ++ rest := by
    rw [List.dropWhile_append_of_pos (by simpa using hsp)]
    cases tok with
    | nil => simp [hnil rfl]
    | cons t ts => simp [htok t (List.mem_cons_self _ _)]
  have h3 : (tok ++ rest).takeWhile (fun c => c != ' ') = tok := by
    rw [List.takeWhile_append_of_pos (by simpa using htok)]
    rcases hrest with rfl | ⟨s3, rfl⟩ <;> simp
  rw [firstChunk, h1, h2, h3]

/-- The tokenizer loop on a buffer that holds the NUL-free text `s` at the
saved offset: it stops, the strings at the stored pointers are the runs of
non-space characters of `s`, and the string at the start of the text is cut
after the first run. -/
theorem tokLoop_spec (fuel : Nat) : ∀ (s pre junk : List Char) (acc : List Nat),
    (∀ c ∈ s, c ≠ NUL) → s.length < fuel →
    ∃ s1 ptrs, tokLoop fuel (pre ++ (s ++ NUL :: junk)) pre.length acc
        = (pre ++ (s1 ++ NUL :: junk), acc ++ ptrs) ∧
      ptrs.map (cstrAt (pre ++ (s1 ++ NUL :: junk))) = runs (fun c => c == ' ') s ∧
      s1.takeWhile (fun c => c != NUL) = firstChunk s := by
  induction fuel with
  | zero => intro s pre junk acc _ h; exact absurd h (Nat.not_lt_zero _)
  | succ fuel ih =>
    intro s pre junk acc hs hlen
    obtain ⟨sp, tok, rest, rfl, hsp, htok, hrest, hnil⟩ := text_shape s
    have hfc := firstChunk_shape sp tok rest hsp htok hrest hnil
    have hspn : ∀ c ∈ sp, c ≠ NUL := fun c hc => hs c (List.mem_append_left _ hc)
    have htokn : ∀ c ∈ tok, c ≠ ' ' ∧ c ≠ NUL := fun c hc =>
      ⟨htok c hc, hs c (List.mem_append_right _ (List.mem_append_left _ hc))⟩
    by_cases hne : tok = []
    · subst hne
      have hr := hnil rfl
      subst hr
      have h := strtok_end pre sp junk hsp
      refine ⟨sp, [], ?_, ?_, ?_⟩
      · simp only [List.nil_append, List.append_nil] at h ⊢
        rw [tokLoop]
        rcases hst : strtok (pre ++ (sp ++ NUL :: junk)) pre.length with ⟨o, b, n⟩
        rw [hst] at h
        simp only at h
        obtain ⟨rfl, rfl⟩ := h
        rfl
      · simp only [List.nil_append, List.append_nil, List.map_nil]
        rw [← List.append_nil sp, runs_seps _ _ _ (by simpa using hsp), runs_nil]
      · rw [hfc]; simpa using hspn
    · rcases hrest with rfl | ⟨s3, rfl⟩
      · -- the token ends the text
        obtain ⟨fuel1, rfl⟩ : ∃ k, fuel = k + 1 := by
          have : 0 < tok.length := List.length_pos.2 hne
          simp only [List.length_append, List.length_nil] at hlen
          exact ⟨fuel - 1, by omega⟩
        have e1 : pre ++ ((sp ++ (tok ++ [])) ++ NUL :: junk)
            = pre ++ (sp ++ (tok ++ NUL :: junk)) := by simp
        have e2 : pre ++ (sp ++ (tok ++ NUL :: junk))
            = (pre ++ (sp ++ tok)) ++ ([] ++ NUL :: junk) := by simp
        have e3 : pre.length + sp.length + tok.length = (pre ++ (sp ++ tok)).length := by
          simp [Nat.add_assoc]
        have hend := strtok_end (pre ++ (sp ++ tok)) [] junk (by simp)
        refine ⟨sp ++ (tok ++ []), [pre.length + sp.length], ?_, ?_, ?_⟩
        · rw [tokLoop, e1, strtok_last pre sp tok junk hsp htokn hne]
          simp only
          rw [tokLoop, e3, e2]
          rcases hst : strtok (pre ++ (sp ++ tok) ++ ([] ++ NUL :: junk))
            (pre ++ (sp ++ tok)).length with ⟨o, b, n⟩
          rw [hst] at hend
          simp only at hend
          obtain ⟨rfl, rfl⟩ := hend
          rfl
        · rw [e1, runs_seps _ _ _ (by simpa using hsp), List.append_nil,
            runs_single _ _ (by simpa using htok) hne]
          have e4 : pre ++ (sp ++ (tok ++ NUL :: junk)) = (pre ++ sp) ++ (tok ++ NUL :: junk) := by
            simp
          rw [List.map_singleton, e4, ← List.length_append,
            cstrAt_mid _ _ _ (fun c hc => (htokn c hc).2)]
        · rw [hfc, List.append_nil]
          rw [List.takeWhile_eq_self_iff]
          intro c hc
          rcases List.mem_append.1 hc with hc | hc
          · simpa using hspn c hc
          · simpa using (htokn c hc).2
      · -- the token is followed by a space
        have hf : s3.length < fuel := by
          simp only [List.length_append, List.length_cons] at hlen
          omega
        have hs3 : ∀ c ∈ s3, c ≠ NUL := fun c hc =>
          hs c (List.mem_append_right _ (List.mem_append_right _ (List.mem_cons_of_mem _ hc)))
        have e1 : pre ++ ((sp ++ (tok ++ ' ' :: s3)) ++ NUL :: junk)
            = pre ++ (sp ++ (tok ++ ' ' :: (s3 ++ NUL :: junk))) := by simp
        have e2 : pre ++ (sp ++ (tok ++ NUL :: (s3 ++ NUL :: junk)))
            = (pre ++ (sp ++ (tok ++ [NUL]))) ++ (s3 ++ NUL :: junk) := by simp
        have e3 : pre.length + sp.length + tok.length + 1
            = (pre ++ (sp ++ (tok ++ [NUL]))).length := by
          simp [Nat.add_assoc]
        obtain ⟨s1, ptrs, h1, h2, _⟩ := ih s3 (pre ++ (sp ++ (tok ++ [NUL]))) junk
          (acc ++ [pre.length + sp.length]) hs3 hf
        have e4 : (pre ++ (sp ++ (tok ++ [NUL]))) ++ (s1 ++ NUL :: junk)
            = pre ++ ((sp ++ (tok ++ NUL :: s1)) ++ NUL :: junk) := by simp
        have e5 : (pre ++ (sp ++ (tok ++ [NUL]))) ++ (s1 ++ NUL :: junk)
            = (pre ++ sp) ++ (tok ++ NUL :: (s1 ++ NUL :: junk)) := by simp
        refine ⟨sp ++ (tok ++ NUL :: s1), (pre.length + sp.length) :: ptrs, ?_, ?_, ?_⟩
        · rw [tokLoop, e1, strtok_next pre sp tok _ hsp htokn hne]
          simp only
          rw [e3, e2, h1, e4]
          simp
        · rw [runs_seps _ _ _ (by simpa using hsp),
            runs_first _ _ _ _ (by simpa using htok) hne (by decide), ← h2, ← e4]
          rw [List.map_cons]
          congr 1
          rw [e5, ← List.length_append, cstrAt_mid _ _ _ (fun c hc => (htokn c hc).2)]
        · rw [hfc, ← List.append_assoc, List.takeWhile_append_of_pos]
          · simp
          · intro c hc
            rcases List.mem_append.1 hc with hc | hc
            · simpa using hspn c hc
            · simpa using (htokn c hc).2

/-- After the newline is cut off, the buffer holds the text of the line, a
terminator, and bytes that are never read. -/
theorem chomp_shape (line : List Char) : ∃ junk, chomp line = lineText line ++ NUL :: junk := by
  induction line with
  | nil => exact ⟨[], by decide⟩
  | cons c l ih =>
    obtain ⟨junk, hj⟩ := ih
    by_cases hc : c = NUL ∨ c = NL
    · refine ⟨l ++ [NUL], ?_⟩
      have h10 : (NL != NUL) = true := by decide
      rcases hc with rfl | rfl
      · simp [chomp, lineText, strcspn_nl, cstrAt]
      · simp only [chomp, lineText, strcspn_nl, cstrAt, List.drop_zero, List.cons_append]
        have e1 : List.takeWhile (fun c => c != NUL) (NL :: (l ++ [NUL]))
            = NL :: List.takeWhile (fun c => c != NUL) (l ++ [NUL]) :=
          List.takeWhile_cons_of_pos h10
        have e2 : List.takeWhile (fun c => c != NL)
            (NL :: List.takeWhile (fun c => c != NUL) (l ++ [NUL])) = [] :=
          List.takeWhile_cons_of_neg (by simp)
        have e3 : List.takeWhile (fun c => c != NUL && c != NL) (NL :: l) = [] :=
          List.takeWhile_cons_of_neg (by simp)
        rw [e1, e2, e3]
        rfl
    · push_neg at hc
      refine ⟨junk, ?_⟩
      simp only [chomp, lineText, strcspn_nl, cstrAt, List.drop_zero] at hj ⊢
      simp only [List.cons_append, ne_eq, hc.1, hc.2, not_false_eq_true, bne_iff_ne,
        List.takeWhile_cons_of_pos, List.length_cons, List.set_cons_succ, Bool.and_self,
        decide_True, decide_eq_true_eq]
      rw [hj, List.takeWhile_cons_of_pos (by simp [hc.1, hc.2])]
      rfl

theorem lineText_no_nul (line : List Char) : ∀ c ∈ lineText line, c ≠ NUL := by
  intro c hc
  have := List.mem_takeWhile_imp hc
  simp only [Bool.and_eq_true, bne_iff_ne] at this
  exact this.1

theorem takeWhile_stop (p : Char → Bool) (x y : List Char) (d : Char) (hd : p d = false) :
    (x ++ d :: y).takeWhile p = x.takeWhile p := by
  induction x with
  | nil => simp [hd]
  | cons a x ih =>
    by_cases ha : p a = true
    · simp [List.takeWhile_cons_of_pos ha, ih]
    · simp [List.takeWhile_cons_of_neg ha]

/-- What the tokenizer leaves behind for a line. -/
theorem scan_spec (line : List Char) :
    tokens line = runs (fun c => c == ' ') (lineText line) ∧
    cstrAt (inputAfter line) 0 = firstChunk (lineText line) := by
  obtain ⟨junk, hj⟩ := chomp_shape line
  have hlen : (lineText line).length < (chomp line).length := by
    rw [hj]; simp
  obtain ⟨s1, ptrs, h1, h2, h3⟩ := tokLoop_spec (chomp line).length (lineText line) [] junk []
    (lineText_no_nul line) hlen
  simp only [List.nil_append, List.length_nil] at h1 h2
  rw [← hj] at h1
  have hscan : scan line = (s1 ++ NUL :: junk, ptrs) := h1
  constructor
  · simp only [tokens, inputAfter, hscan]
    exact h2
  · simp only [inputAfter, hscan, cstrAt, List.drop_zero]
    rw [← h3, takeWhile_stop _ _ _ _ (by decide)]

/-! ## C4: the token sequence -/

theorem runs_all_seps (sep : Char → Bool) (s : List Char) (h : ∀ c ∈ s, sep c = true) :
    runs sep s = [] := by
  have := runs_seps sep s [] h
  rw [List.append_nil] at this
  rw [this, runs_nil]

/-- A line that stores no token makes `main` take the `continue` of line 273. -/
theorem main_select_of_no_token (line : List Char) (h : tokens line = []) :
    main_select line = some Branch.continue_ := by
  simp [main_select, h, MAX_ARGS]

/-- C4, as the code has it: the token sequence is exactly the sequence of
maximal runs of non-space characters of the line's text, where the space
character is the only separator; a line whose text consists only of spaces
yields the empty sequence, and the loop executes nothing for it. -/
theorem C4_tokens_are_runs_of_non_space (line : List Char) :
    tokens line = runs (fun c => c == ' ') (lineText line) ∧
    ((∀ c ∈ lineText line, c = ' ') →
      tokens line = [] ∧ main_select line = some Branch.continue_ ∧
      ∀ os, main_iter os line = some []) := by
  refine ⟨(scan_spec line).1, fun h => ?_⟩
  have h0 : tokens line = [] := by
    rw [(scan_spec line).1]
    exact runs_all_seps _ _ (by simpa using h)
  refine ⟨h0, main_select_of_no_token line h0, fun os => ?_⟩
  simp [main_iter, main_select_of_no_token line h0]

/-- C4 at the line of three spaces. -/
theorem C4_tokens_are_runs_of_non_space_witness :
    tokens [' ', ' ', ' ', NL] = [] ∧ main_select [' ', ' ', ' ', NL] = some Branch.continue_ :=
  ⟨((C4_tokens_are_runs_of_non_space [' ', ' ', ' ', NL]).2 (by decide)).1,
   ((C4_tokens_are_runs_of_non_space [' ', ' ', ' ', NL]).2 (by decide)).2.1⟩

/-- C4 as stated fails: for the line that holds a single tab the runs of
non-whitespace characters are none, but the read loop stores the token made of
the tab and goes on to execute it as a command. -/
theorem C4_tab_line_is_a_token :
    runs isWhite (lineText [TAB, NL]) = [] ∧
    tokens [TAB, NL] = [[TAB]] ∧
    tokens [TAB, NL] ≠ runs isWhite (lineText [TAB, NL]) ∧
    main_select [TAB, NL] = some (Branch.expand_then_execute (mkArgs [[TAB]])) := by
  decide

/-! ## C1: the choice between `handle_pipe` and the single-command path -/

/-- The string `input` after tokenizing holds a `|` exactly when the first
token does. -/
theorem bar_in_input_iff (line : List Char) (a0 : CStr) (toks : List CStr)
    (h : tokens line = a0 :: toks) :
    '|' ∈ cstrAt (inputAfter line) 0 ↔ '|' ∈ a0 := by
  obtain ⟨h1, h2⟩ := scan_spec line
  rw [h2]
  rw [h1] at h
  obtain ⟨sp, tok, rest, hs, hsp, htok, hrest, hnil⟩ := text_shape (lineText line)
  rw [hs] at h ⊢
  rw [firstChunk_shape sp tok rest hsp htok hrest hnil]
  rw [runs_seps _ _ _ (by simpa using hsp)] at h
  have hne : tok ≠ [] := by
    intro h0
    subst h0
    rw [hnil rfl] at h
    simp [runs_nil] at h
  have ha : a0 = tok := by
    rcases hrest with rfl | ⟨s3, rfl⟩
    · rw [List.append_nil, runs_single _ _ (by simpa using htok) hne] at h
      exact (List.cons.inj h).1.symm
    · rw [runs_first _ _ _ _ (by simpa using htok) hne (by decide)] at h
      exact (List.cons.inj h).1.symm
  subst ha
  constructor
  · intro hm
    rcases List.mem_append.1 hm with hm | hm
    · exact absurd (hsp _ hm) (by decide)
    · exact hm
  · exact fun hm => List.mem_append_right _ hm

/-- For a line whose first token is no built-in name, `main` calls
`handle_pipe` exactly when the first token contains the character `|`;
a separate `|` token further on does not matter. -/
theorem main_select_pipe_iff (line : List Char) (a0 : CStr) (toks : List CStr)
    (h : tokens line = a0 :: toks) (hcap : (tokens line).length < MAX_ARGS)
    (hb : find_builtin a0 = none) :
    (main_select line = some (Branch.handle_pipe (mkArgs (a0 :: toks))) ↔ '|' ∈ a0) ∧
    (main_select line = some (Branch.expand_then_execute (mkArgs (a0 :: toks))) ↔ '|' ∉ a0) := by
  have hbar := bar_in_input_iff line a0 toks h
  have hx : a0 ≠ "exit".toList ∧ a0 ≠ "cd".toList ∧ a0 ≠ "pwd".toList ∧ a0 ≠ "which".toList := by
    simp only [find_builtin, builtin_commands, List.find?_eq_none, List.mem_cons,
      List.mem_singleton, decide_eq_true_eq, forall_eq_or_imp, forall_eq, Builtin.name,
      List.not_mem_nil, false_implies, implies_true, and_true] at hb
    exact ⟨hb.2.2.1, hb.1, hb.2.1, hb.2.2.2⟩
  have hcap1 : ¬ MAX_ARGS ≤ (tokens line).length := Nat.not_le.2 hcap
  unfold main_select
  rw [if_neg hcap1, h]
  simp only [if_neg hx.1, if_neg hx.2.1, if_neg hx.2.2.1, if_neg hx.2.2.2]
  by_cases hm : '|' ∈ a0
  · simp [hbar.2 hm, hm]
  · simp [mt hbar.1 hm, hm]

/-- C1 fails on the code: the line `printf "b\na\n" | sort` has a `|` token
and its first token is no built-in name, yet `main` selects the
single-command path (`expand_wildcards`, then `execute_command`) with the `|`
still among the arguments, and not `handle_pipe`. -/
theorem C1_pipe_line_takes_single_command_path :
    tokens pipeLine = ["printf".toList, quotedArg, BAR, "sort".toList] ∧
    BAR ∈ tokens pipeLine ∧
    find_builtin "printf".toList = none ∧
    main_select pipeLine
      = some (Branch.expand_then_execute (mkArgs ["printf".toList, quotedArg, BAR, "sort".toList])) ∧
    main_select pipeLine
      ≠ some (Branch.handle_pipe (mkArgs ["printf".toList, quotedArg, BAR, "sort".toList])) := by
  decide

/-! ## C2, C7, C8: redirection -/

/-- The scan of `handle_redirection` over a terminated vector stops, and what
it leaves before the first `NULL` are the tokens before the first operator. -/
theorem redir_scan_mkArgs (toks : List CStr) : ∀ (inF outF : Option CStr),
    ∃ args1 i o, redir_scan (mkArgs toks) inF outF = some (args1, i, o) ∧
      argvOf args1 = toks.takeWhile (fun a => !isRedir a) ∧
      args1.head? = some (toks.takeWhile (fun a => !isRedir a)).head? := by
  induction toks with
  | nil => intro inF outF; exact ⟨[none], inF, outF, rfl, rfl, rfl⟩
  | cons a rest ih =>
    intro inF outF
    have hrest : ∃ nxt tl, mkArgs rest = nxt :: tl := by
      cases rest with
      | nil => exact ⟨none, [], rfl⟩
      | cons b r => exact ⟨some b, mkArgs r, rfl⟩
    obtain ⟨nxt, tl, hn⟩ := hrest
    have hcons : mkArgs (a :: rest) = some a :: mkArgs rest := rfl
    by_cases h1 : a = LT
    · obtain ⟨args1, i, o, h, _, _⟩ := ih nxt outF
      refine ⟨none :: args1, i, o, ?_, ?_, ?_⟩
      · rw [hn] at h
        rw [hcons, hn]
        simp only [redir_scan, if_pos h1, h, Option.map_some']
      · simp [argvOf, isRedir, h1]
      · simp [isRedir, h1]
    · by_cases h2 : a = GT
      · obtain ⟨args1, i, o, h, _, _⟩ := ih inF nxt
        refine ⟨none :: args1, i, o, ?_, ?_, ?_⟩
        · rw [hn] at h
          rw [hcons, hn]
          simp only [redir_scan, if_neg h1, if_pos h2, h, Option.map_some']
        · simp [argvOf, isRedir, h2]
        · simp [isRedir, h2]
      · obtain ⟨args1, i, o, h, h3, _⟩ := ih inF outF
        refine ⟨some a :: args1, i, o, ?_, ?_, ?_⟩
        · rw [hcons]
          simp only [redir_scan, if_neg h1, if_neg h2, h, Option.map_some']
        · simp [argvOf, isRedir, h1, h2, h3]
        · simp [isRedir, h1, h2]

theorem exec_calls_append (xs ys : List Ev) :
    exec_calls (xs ++ ys) = exec_calls xs ++ exec_calls ys := by
  simp [exec_calls, List.filterMap_append]

theorem exec_calls_cons (e : Ev) (xs : List Ev) :
    exec_calls (e :: xs) = exec_calls [e] ++ exec_calls xs :=
  exec_calls_append [e] xs

theorem exec_calls_redirect_input (os : OS) (f : Option CStr) :
    exec_calls (redirect_input os f).2 = [] := by
  cases f with
  | none => rfl
  | some f =>
    simp only [redirect_input]
    split_ifs <;> rfl

theorem exec_calls_redirect_output (os : OS) (f : Option CStr) :
    exec_calls (redirect_output os f).2 = [] := by
  cases f with
  | none => rfl
  | some f =>
    simp only [redirect_output]
    split_ifs <;> rfl

/-- The function `handle_redirection` returns 0 or 1 on every terminated
vector, leaves the tokens before the first operator in front of the first
`NULL`, and calls no `execvp`. -/
theorem handle_redirection_mkArgs (os : OS) (toks : List CStr) :
    ∃ ret args1 evs, handle_redirection os (mkArgs toks) = some (ret, args1, evs) ∧
      (ret = 0 ∨ ret = 1) ∧
      argvOf args1 = toks.takeWhile (fun a => !isRedir a) ∧
      args1.head? = some (toks.takeWhile (fun a => !isRedir a)).head? ∧
      exec_calls evs = [] := by
  obtain ⟨args1, i, o, h, h1, h2⟩ := redir_scan_mkArgs toks none none
  have hi := exec_calls_redirect_input os i
  have ho := exec_calls_redirect_output os o
  simp only [handle_redirection, h]
  rcases hin : redirect_input os i with ⟨bi, ei⟩
  rw [hin] at hi
  cases bi with
  | false => exact ⟨0, args1, ei, rfl, Or.inl rfl, h1, h2, hi⟩
  | true =>
    rcases hout : redirect_output os o with ⟨bo, eo⟩
    rw [hout] at ho
    simp only at hi ho
    cases bo with
    | false => exact ⟨0, args1, ei ++ eo, rfl, Or.inl rfl, h1, h2, by rw [exec_calls_append, hi, ho]; rfl⟩
    | true => exact ⟨1, args1, ei ++ eo, rfl, Or.inr rfl, h1, h2, by rw [exec_calls_append, hi, ho]; rfl⟩

/-- C2, as the code has it: for every argument vector whose first token is no
built-in name, `handle_redirection` leaves in front of the first `NULL` the
tokens that precede the first `<` or `>` token, in their order, and when it
reports success the child of `execute_command` calls `execvp` once, with
exactly that vector; tokens after the first operator are not passed on. -/
theorem C2_program_gets_tokens_before_first_operator (os : OS) (a0 : CStr) (rest : List CStr)
    (hb : find_builtin a0 = none) :
    ∃ ret args1 evs, handle_redirection os (mkArgs (a0 :: rest)) = some (ret, args1, evs) ∧
      argvOf args1 = (a0 :: rest).takeWhile (fun a => !isRedir a) ∧
      ∃ cevs st, execute_child os (mkArgs (a0 :: rest)) = some (cevs, st) ∧
        exec_calls cevs =
          if ret = 0 then []
          else [(((a0 :: rest).takeWhile (fun a => !isRedir a)).head?,
                 (a0 :: rest).takeWhile (fun a => !isRedir a))] := by
  obtain ⟨ret, args1, evs, h, hret, h1, h2, h3⟩ := handle_redirection_mkArgs os (a0 :: rest)
  refine ⟨ret, args1, evs, h, h1, ?_⟩
  have hcons : mkArgs (a0 :: rest) = some a0 :: mkArgs rest := rfl
  rw [hcons] at h ⊢
  rcases hret with rfl | rfl
  · refine ⟨.fflush :: evs ++ [.exit 1], .exited 1, by simp only [execute_child, hb, h], ?_⟩
    rw [List.cons_append, exec_calls_cons, exec_calls_append, h3]
    rfl
  · simp only [execute_child, hb, h, h2]
    rw [h1]
    cases hx : os.execvp ((a0 :: rest).takeWhile (fun a => !isRedir a)).head?
        ((a0 :: rest).takeWhile (fun a => !isRedir a)) with
    | none =>
      refine ⟨_, _, rfl, ?_⟩
      rw [List.cons_append, exec_calls_cons, exec_calls_append, h3]
      rfl
    | some st =>
      refine ⟨_, _, rfl, ?_⟩
      rw [List.cons_append, exec_calls_cons, exec_calls_append, h3]
      rfl

/-- C2 at `sort < in.txt -r`. -/
theorem C2_program_gets_tokens_before_first_operator_witness :
    ∃ ret args1 evs,
      handle_redirection demoOS (mkArgs ["sort".toList, LT, "in.txt".toList, "-r".toList])
        = some (ret, args1, evs) ∧
      argvOf args1 = ["sort".toList, LT, "in.txt".toList, "-r".toList].takeWhile (fun a => !isRedir a) ∧
      ∃ cevs st,
        execute_child demoOS (mkArgs ["sort".toList, LT, "in.txt".toList, "-r".toList])
          = some (cevs, st) ∧
        exec_calls cevs =
          if ret = 0 then []
          else [((["sort".toList, LT, "in.txt".toList, "-r".toList].takeWhile
                    (fun a => !isRedir a)).head?,
                 ["sort".toList, LT, "in.txt".toList, "-r".toList].takeWhile (fun a => !isRedir a))] :=
  C2_program_gets_tokens_before_first_operator demoOS "sort".toList
    [LT, "in.txt".toList, "-r".toList] (by decide)

/-- C2 as stated fails: for `sort < in.txt -r`, where the operator is followed
by a file name, the vector with the operator and the file name removed is
`sort -r`, but the child of `execute_command` calls `execvp` with `sort` alone. -/
theorem C2_token_after_redirection_is_dropped :
    strip_redirections ["sort".toList, LT, "in.txt".toList, "-r".toList]
      = ["sort".toList, "-r".toList] ∧
    (execute_child demoOS (mkArgs ["sort".toList, LT, "in.txt".toList, "-r".toList])).map
      (fun r => exec_calls r.1) = some [(some "sort".toList, ["sort".toList])] ∧
    (execute_child demoOS (mkArgs ["sort".toList, LT, "in.txt".toList, "-r".toList])).map
      (fun r => exec_calls r.1)
      ≠ some [(some "sort".toList,
          strip_redirections ["sort".toList, LT, "in.txt".toList, "-r".toList])] := by
  decide

/-- Every `open` that `handle_redirection` makes is either the read-only open
of the input file or the open of the output file with the flags
`O_CREAT | O_TRUNC | O_WRONLY` and the mode 0640. -/
theorem handle_redirection_opens (os : OS) (args : Argv) (ret : Nat) (args1 : Argv)
    (evs : List Ev) (h : handle_redirection os args = some (ret, args1, evs))
    (p : CStr) (fl : List OFlag) (m : Option Nat) (hm : Ev.openFile p fl m ∈ evs) :
    (fl = [.O_RDONLY] ∧ m = none) ∨ (fl = [.O_CREAT, .O_TRUNC, .O_WRONLY] ∧ m = some 0o640) := by
  have hin : ∀ f, Ev.openFile p fl m ∈ (redirect_input os f).2 → fl = [.O_RDONLY] ∧ m = none := by
    intro f
    cases f with
    | none => simp [redirect_input]
    | some f =>
      simp only [redirect_input]
      split_ifs <;> simp
  have hout : ∀ f, Ev.openFile p fl m ∈ (redirect_output os f).2 →
      fl = [.O_CREAT, .O_TRUNC, .O_WRONLY] ∧ m = some 0o640 := by
    intro f
    cases f with
    | none => simp [redirect_output]
    | some f =>
      simp only [redirect_output]
      split_ifs <;> simp
  simp only [handle_redirection] at h
  rcases hs : redir_scan args none none with _ | ⟨a1, i, o⟩
  · rw [hs] at h; exact absurd h (by simp)
  · rw [hs] at h
    simp only at h
    rcases hi : redirect_input os i with ⟨bi, ei⟩
    rcases ho : redirect_output os o with ⟨bo, eo⟩
    have hin1 := hin i
    have hout1 := hout o
    rw [hi] at h hin1
    rw [ho] at hout1
    cases bi with
    | false =>
      simp only [Option.some.injEq, Prod.mk.injEq] at h
      obtain ⟨_, _, rfl⟩ := h
      exact Or.inl (hin1 hm)
    | true =>
      simp only [ho] at h
      cases bo <;>
      · simp only [Option.some.injEq, Prod.mk.injEq] at h
        obtain ⟨_, _, rfl⟩ := h
        rcases List.mem_append.1 hm with hm | hm
        · exact Or.inl (hin1 hm)
        · exact Or.inr (hout1 hm)

/-- The scan over a command without operators followed by `> f`: the output
file is `f` and no input file is set. -/
theorem redir_scan_output (cmd : List CStr) (f : CStr) (hcmd : ∀ a ∈ cmd, isRedir a = false)
    (hf : isRedir f = false) :
    redir_scan (mkArgs (cmd ++ [GT, f])) none none
      = some (cmd.map some ++ [none, some f, none], none, some f) := by
  induction cmd with
  | nil =>
    have h1 : f ≠ LT := by intro h; simp [isRedir, h] at hf
    have h2 : f ≠ GT := by intro h; simp [isRedir, h] at hf
    have h3 : GT ≠ LT := by decide
    simp [mkArgs, redir_scan, h1, h2, h3]
  | cons a cmd ih =>
    have ha := hcmd a (List.mem_cons_self _ _)
    have h1 : a ≠ LT := by intro h; simp [isRedir, h] at ha
    have h2 : a ≠ GT := by intro h; simp [isRedir, h] at ha
    have ih1 := ih (fun b hb => hcmd b (List.mem_cons_of_mem _ hb))
    have hcons : mkArgs (a :: cmd ++ [GT, f]) = some a :: mkArgs (cmd ++ [GT, f]) := rfl
    rw [hcons]
    simp only [redir_scan, if_neg h1, if_neg h2, ih1, Option.map_some', List.map_cons,
      List.cons_append]

/-- C7, as the code has it: for every command without operators followed by
`> f`, `handle_redirection` opens `f` with the flags `O_CREAT | O_TRUNC |
O_WRONLY` and the mode octal 0640; for every argument vector, every `open` it
makes with a mode has these flags and this mode; and the mode grants read and
write to the owner, read only to the group, and nothing to others. -/
theorem C7_output_file_is_created_with_mode_0640 (os : OS) (cmd : List CStr) (f : CStr)
    (hcmd : ∀ a ∈ cmd, isRedir a = false) (hf : isRedir f = false) :
    (∃ ret args1 evs, handle_redirection os (mkArgs (cmd ++ [GT, f])) = some (ret, args1, evs) ∧
      Ev.openFile f [.O_CREAT, .O_TRUNC, .O_WRONLY] (some 0o640) ∈ evs) ∧
    (∀ args ret args1 evs, handle_redirection os args = some (ret, args1, evs) →
      ∀ p fl m, Ev.openFile p fl (some m) ∈ evs →
        fl = [.O_CREAT, .O_TRUNC, .O_WRONLY] ∧ m = 0o640) ∧
    permOf 0o640 = { ownerR := true, ownerW := true, ownerX := false,
                     groupR := true, groupW := false, groupX := false,
                     otherR := false, otherW := false, otherX := false } := by
  refine ⟨?_, ?_, by decide⟩
  · have hs := redir_scan_output cmd f hcmd hf
    have hout : ∃ b evs, redirect_output os (some f) = (b, evs) ∧
        Ev.openFile f [.O_CREAT, .O_TRUNC, .O_WRONLY] (some 0o640) ∈ evs := by
      have hn : ¬ ((some f : Option CStr) = none) := by simp
      simp only [redirect_output, if_neg hn]
      by_cases h1 : os.openWr f = false
      · rw [if_pos h1]; exact ⟨_, _, rfl, by simp⟩
      · rw [if_neg h1]
        by_cases h2 : os.dup2 (.opened f) 1 = false
        · rw [if_pos h2]; exact ⟨_, _, rfl, by simp⟩
        · rw [if_neg h2]; exact ⟨_, _, rfl, by simp⟩
    obtain ⟨b, evs, hb, hmem⟩ := hout
    simp only [handle_redirection, hs, redirect_input, hb]
    cases b
    · exact ⟨_, _, _, rfl, by simpa using hmem⟩
    · exact ⟨_, _, _, rfl, by simpa using hmem⟩
  · intro args ret args1 evs h p fl m hp
    rcases handle_redirection_opens os args ret args1 evs h p fl (some m) hp with ⟨_, h2⟩ | ⟨h1, h2⟩
    · exact absurd h2 (by simp)
    · exact ⟨h1, by simpa using h2⟩

/-- C7 at `echo hello > out.txt`. -/
theorem C7_output_file_is_created_with_mode_0640_witness :
    (∃ ret args1 evs,
      handle_redirection demoOS (mkArgs (["echo".toList, "hello".toList] ++ [GT, "out.txt".toList]))
        = some (ret, args1, evs) ∧
      Ev.openFile "out.txt".toList [.O_CREAT, .O_TRUNC, .O_WRONLY] (some 0o640) ∈ evs) ∧
    (∀ args ret args1 evs, handle_redirection demoOS args = some (ret, args1, evs) →
      ∀ p fl m, Ev.openFile p fl (some m) ∈ evs →
        fl = [.O_CREAT, .O_TRUNC, .O_WRONLY] ∧ m = 0o640) ∧
    permOf 0o640 = { ownerR := true, ownerW := true, ownerX := false,
                     groupR := true, groupW := false, groupX := false,
                     otherR := false, otherW := false, otherX := false } :=
  C7_output_file_is_created_with_mode_0640 demoOS ["echo".toList, "hello".toList]
    "out.txt".toList (by decide) (by decide)

/-- C7 as stated fails: for `echo hello > out.txt` the mode requested for the
output file is octal 0640, which is not 0660: the group gets no write
permission. -/
theorem C7_requested_mode_is_not_0660 :
    (handle_redirection demoOS
        (mkArgs ["echo".toList, "hello".toList, GT, "out.txt".toList])).map (fun r => r.2.2)
      = some [.openFile "out.txt".toList [.O_CREAT, .O_TRUNC, .O_WRONLY] (some 0o640),
              .dup2 (.opened "out.txt".toList) 1, .close (.opened "out.txt".toList)] ∧
    (0o640 : Nat) ≠ 0o660 ∧
    (permOf 0o640).groupW = false ∧ (permOf 0o660).groupW = true := by
  decide

/-- A command without operators followed by a lone `<` or `>`: the scan
captures the terminator as the file name, so neither file is set. -/
theorem redir_scan_trailing (cmd : List CStr) (op : CStr) (hcmd : ∀ a ∈ cmd, isRedir a = false)
    (hop : op = LT ∨ op = GT) :
    redir_scan (mkArgs (cmd ++ [op])) none none = some (cmd.map some ++ [none, none], none, none) := by
  induction cmd with
  | nil =>
    have h3 : GT ≠ LT := by decide
    rcases hop with rfl | rfl
    · simp [mkArgs, redir_scan]
    · simp [mkArgs, redir_scan, h3]
  | cons a cmd ih =>
    have ha := hcmd a (List.mem_cons_self _ _)
    have h1 : a ≠ LT := by intro h; simp [isRedir, h] at ha
    have h2 : a ≠ GT := by intro h; simp [isRedir, h] at ha
    have ih1 := ih (fun b hb => hcmd b (List.mem_cons_of_mem _ hb))
    have hcons : mkArgs (a :: cmd ++ [op]) = some a :: mkArgs (cmd ++ [op]) := rfl
    rw [hcons]
    simp only [redir_scan, if_neg h1, if_neg h2, ih1, Option.map_some', List.map_cons,
      List.cons_append]

/-- Whatever the command, a lone trailing `<` or `>` makes `handle_redirection`
return 1 without any call. -/
theorem handle_redirection_trailing (os : OS) (cmd : List CStr) (op : CStr)
    (hcmd : ∀ a ∈ cmd, isRedir a = false) (hop : op = LT ∨ op = GT) :
    handle_redirection os (mkArgs (cmd ++ [op])) = some (1, cmd.map some ++ [none, none], []) := by
  simp only [handle_redirection, redir_scan_trailing cmd op hcmd hop, redirect_input,
    redirect_output]
  rfl

/-- C8 fails on the code: for `echo hi >` and for `cat <`, whose last token is
an operator, `handle_redirection` returns 1 and makes no call, whatever the
system answers, and the child of `execute_command` goes on to `execvp` with the
tokens before the operator. -/
theorem C8_operator_without_file_name_is_accepted (os : OS) :
    handle_redirection os (mkArgs ["echo".toList, "hi".toList, GT])
      = some (1, [some "echo".toList, some "hi".toList, none, none], []) ∧
    handle_redirection os (mkArgs ["cat".toList, LT])
      = some (1, [some "cat".toList, none, none], []) ∧
    (execute_child os (mkArgs ["echo".toList, "hi".toList, GT])).map (fun r => exec_calls r.1)
      = some [(some "echo".toList, ["echo".toList, "hi".toList])] ∧
    (execute_child os (mkArgs ["cat".toList, LT])).map (fun r => exec_calls r.1)
      = some [(some "cat".toList, ["cat".toList])] := by
  have h1 : handle_redirection os (mkArgs ["echo".toList, "hi".toList, GT])
      = some (1, [some "echo".toList, some "hi".toList, none, none], []) := rfl
  have h2 : handle_redirection os (mkArgs ["cat".toList, LT])
      = some (1, [some "cat".toList, none, none], []) := rfl
  refine ⟨h1, h2, ?_, ?_⟩
  · have hb : find_builtin "echo".toList = none := by decide
    have hc : mkArgs ["echo".toList, "hi".toList, GT]
        = some "echo".toList :: mkArgs ["hi".toList, GT] := rfl
    rw [hc] at h1 ⊢
    simp only [execute_child, hb, h1]
    cases hx : os.execvp (some "echo".toList) ["echo".toList, "hi".toList] <;>
      simp only [List.head?, argvOf, hx] <;> rfl
  · have hb : find_builtin "cat".toList = none := by decide
    have hc : mkArgs ["cat".toList, LT] = some "cat".toList :: mkArgs [LT] := rfl
    rw [hc] at h2 ⊢
    simp only [execute_child, hb, h2]
    cases hx : os.execvp (some "cat".toList) ["cat".toList] <;>
      simp only [List.head?, argvOf, hx] <;> rfl

/-! ## C3, C10: wildcards -/

theorem expand_loop_plain (os : OS) (fuel i : Nat) (args : Argv) (evs : List Ev) (a : CStr)
    (h : args[i]? = some (some a)) (hs : '*' ∉ a) :
    expand_loop os (fuel + 1) i args evs = expand_loop os fuel (i + 1) args evs := by
  simp only [expand_loop, h, if_neg hs]

theorem expand_loop_null (os : OS) (fuel i : Nat) (args : Argv) (evs : List Ev)
    (h : args[i]? = some none) :
    expand_loop os (fuel + 1) i args evs = some (1, args, evs) := by
  simp only [expand_loop, h]

theorem expand_loop_matched (os : OS) (fuel i : Nat) (args args1 : Argv) (evs : List Ev)
    (a : CStr) (ps : List CStr) (h : args[i]? = some (some a)) (hs : '*' ∈ a)
    (hg : os.glob a = .matched ps) (hst : store_matches args i ps = some args1) :
    expand_loop os (fuel + 1) i args evs = expand_loop os fuel (i + 1) args1 (evs ++ [.glob a]) := by
  simp only [expand_loop, h, if_pos hs, hg, hst]

theorem expand_loop_nomatch (os : OS) (fuel i : Nat) (args : Argv) (evs : List Ev)
    (a : CStr) (h : args[i]? = some (some a)) (hs : '*' ∈ a) (hg : os.glob a = .noMatch) :
    expand_loop os (fuel + 1) i args evs
      = expand_loop os fuel (i + 1) (args.set i (some a)) (evs ++ [.glob a]) := by
  simp only [expand_loop, h, if_pos hs, hg]

theorem expand_loop_failed (os : OS) (fuel i : Nat) (args : Argv) (evs : List Ev)
    (a : CStr) (h : args[i]? = some (some a)) (hs : '*' ∈ a) (hg : os.glob a = .failed) :
    expand_loop os (fuel + 1) i args evs = some (0, args, evs ++ [.glob a, .perror "glob"]) := by
  simp only [expand_loop, h, if_pos hs, hg]

/-- C3 fails on the code: with `a.txt`, `b.txt`, `c.txt` matching `*.txt`,
`expand_wildcards` turns `ls *.txt -l` into `ls a.txt b.txt c.txt`: the
matches are written over the slots that follow the pattern and the `NULL`
after the last match ends the vector, so the token `-l` is lost, whereas the
expansion in place keeps it. -/
theorem C3_tokens_after_expanded_pattern_are_lost (os : OS)
    (h : os.glob "*.txt".toList = .matched ["a.txt".toList, "b.txt".toList, "c.txt".toList]) :
    expand_wildcards os (mkArgs ["ls".toList, "*.txt".toList, "-l".toList])
      = some (1, mkArgs ["ls".toList, "a.txt".toList, "b.txt".toList, "c.txt".toList],
          [.glob "*.txt".toList]) ∧
    expand_reference os ["ls".toList, "*.txt".toList, "-l".toList]
      = ["ls".toList, "a.txt".toList, "b.txt".toList, "c.txt".toList, "-l".toList] := by
  have h1 : '*' ∉ "ls".toList := by decide
  have h2 : '*' ∈ "*.txt".toList := by decide
  have h3 : '*' ∉ "a.txt".toList := by decide
  have h4 : '*' ∉ "b.txt".toList := by decide
  have h5 : '*' ∉ "c.txt".toList := by decide
  have h6 : '*' ∉ "-l".toList := by decide
  constructor
  · have e : MAX_ARGS + 1 = 95 + 1 + 1 + 1 + 1 + 1 + 1 := rfl
    rw [expand_wildcards, e,
      expand_loop_plain os _ 0 _ _ "ls".toList rfl h1,
      expand_loop_matched os _ 1 (mkArgs ["ls".toList, "*.txt".toList, "-l".toList])
        (mkArgs ["ls".toList, "a.txt".toList, "b.txt".toList, "c.txt".toList]) _
        "*.txt".toList _ rfl h2 h (by decide),
      expand_loop_plain os _ 2 _ _ "b.txt".toList rfl h4,
      expand_loop_plain os _ 3 _ _ "c.txt".toList rfl h5,
      expand_loop_null os _ 4 _ _ rfl]
    rfl
  · simp only [expand_reference, List.flatMap_cons, List.flatMap_nil, if_neg h1, if_pos h2, h,
      if_neg h6]
    rfl

/-- C3 in the directory of `demoOS`. -/
theorem C3_tokens_after_expanded_pattern_are_lost_witness :
    expand_wildcards demoOS (mkArgs ["ls".toList, "*.txt".toList, "-l".toList])
      = some (1, mkArgs ["ls".toList, "a.txt".toList, "b.txt".toList, "c.txt".toList],
          [.glob "*.txt".toList]) ∧
    expand_reference demoOS ["ls".toList, "*.txt".toList, "-l".toList]
      = ["ls".toList, "a.txt".toList, "b.txt".toList, "c.txt".toList, "-l".toList] :=
  C3_tokens_after_expanded_pattern_are_lost demoOS (by decide)

/-- On the single-command path `main` runs `execute_command` on the array
that `expand_wildcards` leaves, whatever value `expand_wildcards` returned. -/
theorem main_iter_drops_expand_result (os : OS) (line : List Char) (args args1 : Argv)
    (r : Nat) (evs : List Ev) (hsel : main_select line = some (Branch.expand_then_execute args))
    (hx : expand_wildcards os args = some (r, args1, evs)) :
    main_iter os line
      = (execute_command os args1).map (fun tr => evs.map (fun e => (Proc.shell, e)) ++ tr) := by
  simp only [main_iter, hsel, hx]

/-- The line `ls /x/*` as `fgets` stores it. -/
theorem globLine_select :
    main_select ("ls /x/*".toList ++ [NL])
      = some (Branch.expand_then_execute (mkArgs ["ls".toList, "/x/*".toList])) := by
  decide

/-- C10 fails on the code: when `glob` fails on `/x/*`, `expand_wildcards`
returns 0 for the line `ls /x/*`, yet `main` drops that value and calls
`execute_command`: the shell forks, and the child calls `execvp` with the
unexpanded vector. -/
theorem C10_glob_failure_does_not_abort_the_line (os : OS)
    (hg : os.glob "/x/*".toList = .failed) (hf : os.fork .child = true) :
    (expand_wildcards os (mkArgs ["ls".toList, "/x/*".toList])).map (fun r => r.1) = some 0 ∧
    ∃ tr, main_iter os ("ls /x/*".toList ++ [NL]) = some tr ∧
      (Proc.shell, Ev.perror "glob") ∈ tr ∧
      fork_count tr = 1 ∧
      stage_execs tr = [(Proc.child, ["ls".toList, "/x/*".toList])] := by
  have h1 : '*' ∉ "ls".toList := by decide
  have h2 : '*' ∈ "/x/*".toList := by decide
  have e : MAX_ARGS + 1 = 99 + 1 + 1 := rfl
  have hx : expand_wildcards os (mkArgs ["ls".toList, "/x/*".toList])
      = some (0, mkArgs ["ls".toList, "/x/*".toList],
          [.glob "/x/*".toList, .perror "glob"]) := by
    rw [expand_wildcards, e, expand_loop_plain os _ 0 _ _ "ls".toList rfl h1,
      expand_loop_failed os _ 1 _ _ "/x/*".toList rfl h2 hg]
    rfl
  refine ⟨by rw [hx]; rfl, ?_⟩
  have hb : find_builtin "ls".toList = none := by decide
  have hr : handle_redirection os (mkArgs ["ls".toList, "/x/*".toList])
      = some (1, mkArgs ["ls".toList, "/x/*".toList], []) := rfl
  have hc : mkArgs ["ls".toList, "/x/*".toList] = some "ls".toList :: mkArgs ["/x/*".toList] := rfl
  simp only [main_iter, globLine_select, hx, execute_command, hf]
  rw [hc] at hr ⊢
  simp only [execute_child, hb, hr, List.head?, argvOf]
  cases os.execvp (some "ls".toList) ["ls".toList, "/x/*".toList] with
  | none => exact ⟨_, rfl, by decide, by decide, by decide⟩
  | some st =>
    cases st with
    | exited code =>
      refine ⟨_, rfl, by simp, ?_, ?_⟩
      · simp [fork_count, report_status]
      · simp [stage_execs, report_status]
    | signaled sig => exact ⟨_, rfl, by simp, by simp [fork_count, report_status], by simp [stage_execs, report_status]⟩

/-- C10 in the system `demoOS`. -/
theorem C10_glob_failure_does_not_abort_the_line_witness :
    (expand_wildcards demoOS (mkArgs ["ls".toList, "/x/*".toList])).map (fun r => r.1) = some 0 ∧
    ∃ tr, main_iter demoOS ("ls /x/*".toList ++ [NL]) = some tr ∧
      (Proc.shell, Ev.perror "glob") ∈ tr ∧
      fork_count tr = 1 ∧
      stage_execs tr = [(Proc.child, ["ls".toList, "/x/*".toList])] :=
  C10_glob_failure_does_not_abort_the_line demoOS (by decide) (by decide)

/-! ## C6: status report -/

/-- What lines 144-152 print for a status: the message for a nonzero exit
code or a signal, none for exit code 0, then one blank line. -/
theorem report_status_output (st : WaitStatus) :
    shell_output ((report_status st).map (fun e => (Proc.shell, e))) = status_messages st := by
  cases st with
  | exited code =>
    cases code with
    | zero => rfl
    | succ n => simp [report_status, shell_output, status_messages]
  | signaled sig => simp [report_status, shell_output, status_messages]

/-! ## The general shape of the loss in `expand_wildcards` -/

theorem argvOf_map_some (xs : List CStr) (rest : Argv) :
    argvOf (xs.map some ++ none :: rest) = xs := by
  induction xs with
  | nil => rfl
  | cons x xs ih =>
    simp only [List.map_cons, List.cons_append, argvOf]
    exact congrArg (fun l => x :: l) ih

theorem store_at_end (X Y : Argv) (v : Option CStr) (h : X.length < MAX_ARGS) :
    store (X ++ Y) X.length v = some (X ++ v :: Y.drop 1) := by
  unfold store
  cases Y with
  | nil =>
    have h1 : ¬ X.length < (X ++ []).length := by simp
    rw [if_neg h1, if_pos ⟨by simp, h⟩]
    simp
  | cons y ys =>
    have h1 : X.length < (X ++ y :: ys).length := by simp
    rw [if_pos h1, List.set_append_right _ _ (le_refl _)]
    simp

/-- The stores of lines 167-172: the matches and a `NULL` are written over
the slots from `args[i]` on. -/
theorem store_matches_spec (ms : List CStr) : ∀ (X Y : Argv),
    X.length + ms.length < MAX_ARGS →
    store_matches (X ++ Y) X.length ms
      = some (X ++ (ms.map some ++ none :: Y.drop (ms.length + 1))) := by
  induction ms with
  | nil =>
    intro X Y h
    rw [store_matches, store_at_end X Y none (by simpa using h)]
    rfl
  | cons m ms ih =>
    intro X Y h
    have h1 : X.length < MAX_ARGS := by simp only [List.length_cons] at h; omega
    have h2 : (X ++ [some m]).length + ms.length < MAX_ARGS := by
      simp only [List.length_cons, List.length_append, List.length_nil] at h ⊢; omega
    have e1 : X ++ some m :: Y.drop 1 = (X ++ [some m]) ++ Y.drop 1 := by simp
    have e2 : X.length + 1 = (X ++ [some m]).length := by simp
    rw [store_matches, store_at_end X Y _ h1]
    simp only [Option.bind]
    rw [e1, e2, ih _ _ h2]
    simp [Nat.add_comm]

/-- The loop passes over tokens without `*` and leaves them as they are. -/
theorem expand_loop_skip (os : OS) (P : List CStr) (hP : ∀ a ∈ P, '*' ∉ a) :
    ∀ (fuel : Nat) (X Y : Argv) (evs : List Ev),
      expand_loop os (fuel + P.length) X.length (X ++ (P.map some ++ Y)) evs
        = expand_loop os fuel (X.length + P.length) (X ++ (P.map some ++ Y)) evs := by
  induction P with
  | nil => intro fuel X Y evs; rfl
  | cons a P ih =>
    intro fuel X Y evs
    have ha := hP a (List.mem_cons_self _ _)
    have hget : (X ++ ((a :: P).map some ++ Y))[X.length]? = some (some a) := by
      rw [List.getElem?_append_right (le_refl _)]
      simp
    have e1 : fuel + (a :: P).length = (fuel + P.length) + 1 := by
      simp only [List.length_cons]; omega
    have e2 : X ++ ((a :: P).map some ++ Y) = (X ++ [some a]) ++ (P.map some ++ Y) := by simp
    have e3 : X.length + 1 = (X ++ [some a]).length := by simp
    rw [e1, expand_loop_plain os _ _ _ _ a hget ha, e2, e3,
      ih (fun b hb => hP b (List.mem_cons_of_mem _ hb)) fuel (X ++ [some a]) Y evs]
    simp [Nat.add_assoc, Nat.add_comm 1]

/-- Whenever the first token with `*` has matches (none of which contains
`*`) and the result fits the array, `expand_wildcards` returns the tokens
before the pattern followed by the matches: every token after the pattern is
dropped. -/
theorem expand_wildcards_cuts_after_matches (os : OS) (pre post : List CStr) (pat m : CStr)
    (ms : List CStr) (hpre : ∀ a ∈ pre, '*' ∉ a) (hpat : '*' ∈ pat)
    (hg : os.glob pat = .matched (m :: ms)) (hms : ∀ a ∈ m :: ms, '*' ∉ a)
    (hcap : pre.length + (m :: ms).length < MAX_ARGS) :
    ∃ args1, expand_wildcards os (mkArgs (pre ++ pat :: post)) = some (1, args1, [.glob pat]) ∧
      argvOf args1 = pre ++ m :: ms := by
  have hlen : pre.length + ms.length + 1 < MAX_ARGS := by
    simp only [List.length_cons] at hcap; omega
  -- the array before and after the stores
  have e0b : mkArgs (pre ++ pat :: post) = pre.map some ++ (some pat :: mkArgs post) := by
    simp [mkArgs]
  have hget : (pre.map some ++ (some pat :: mkArgs post))[(pre.map some).length]?
      = some (some pat) := by
    rw [List.getElem?_append_right (le_refl _)]
    simp
  have hst := store_matches_spec (m :: ms) (pre.map some) (some pat :: mkArgs post)
    (by simpa using hcap)
  refine ⟨pre.map some ++ ((m :: ms).map some ++
    none :: (some pat :: mkArgs post).drop ((m :: ms).length + 1)), ?_, ?_⟩
  · obtain ⟨k, hk⟩ := Nat.exists_eq_add_of_lt hlen
    have hfuel : MAX_ARGS + 1 = ((k + 1 + 1 + ms.length) + 1) + pre.length := by
      omega
    have hskip1 := expand_loop_skip os pre hpre ((k + 1 + 1 + ms.length) + 1) []
      (some pat :: mkArgs post) []
    simp only [List.nil_append, List.length_nil, Nat.zero_add] at hskip1
    rw [expand_wildcards, e0b, hfuel, hskip1]
    have hget1 : (pre.map some ++ (some pat :: mkArgs post))[pre.length]? = some (some pat) := by
      simpa using hget
    have hst1 : store_matches (pre.map some ++ (some pat :: mkArgs post)) pre.length (m :: ms)
        = some (pre.map some ++ ((m :: ms).map some ++
            none :: (some pat :: mkArgs post).drop ((m :: ms).length + 1))) := by
      simpa using hst
    rw [expand_loop_matched os _ _ _ _ _ pat (m :: ms) hget1 hpat hg hst1]
    -- pass over the remaining matches
    have e4 : pre.map some ++ ((m :: ms).map some ++
          none :: (some pat :: mkArgs post).drop ((m :: ms).length + 1))
        = (pre.map some ++ [some m]) ++ (ms.map some ++
          none :: (some pat :: mkArgs post).drop ((m :: ms).length + 1)) := by
      simp
    have e5 : pre.length + 1 = (pre.map some ++ [some m]).length := by simp
    rw [e4, e5, expand_loop_skip os ms (fun a ha => hms a (List.mem_cons_of_mem _ ha))]
    rw [expand_loop_null]
    · simp
    · rw [← List.append_assoc, List.getElem?_append_right (by simp; omega)]
      have e7 : (pre.map some ++ [some m]).length + ms.length
          - (pre.map some ++ [some m] ++ ms.map some).length = 0 := by simp; omega
      rw [e7]
      exact List.getElem?_cons_zero
  · have e6 : pre.map some ++ ((m :: ms).map some ++
          none :: (some pat :: mkArgs post).drop ((m :: ms).length + 1))
        = (pre ++ m :: ms).map some ++
          none :: (some pat :: mkArgs post).drop ((m :: ms).length + 1) := by
      simp
    rw [e6, argvOf_map_some]

/-! ## C6 and C9: pipelines -/

theorem stage_child_events (os : OS) (pc k : Nat) (cmd : List CStr) (pipefd : Fd × Fd)
    (prev : Option Fd) :
    ∀ e ∈ stage_child os pc k cmd pipefd prev, isCall e = false ∧ ∀ t, e ≠ Ev.printf t := by
  intro e he
  simp only [stage_child, List.mem_append] at he
  rcases he with ((he | he) | he) | he
  · cases prev with
    | none => simp at he
    | some fd => simp at he; rcases he with rfl | rfl <;> simp [isCall]
  · split_ifs at he
    · simp at he; rcases he with rfl | rfl <;> simp [isCall]
    · simp at he
  · simp at he; rcases he with rfl | rfl <;> simp [isCall]
  · split_ifs at he
    · simp at he; rcases he with rfl | rfl <;> simp [isCall]
    · simp at he

theorem stage_parent_events (pipefd : Fd × Fd) (prev : Option Fd) :
    ∀ e ∈ stage_parent pipefd prev, isCall e = false ∧ ∀ t, e ≠ Ev.printf t := by
  intro e he
  simp only [stage_parent, List.mem_append] at he
  rcases he with he | he
  · cases prev with
    | none => simp at he
    | some fd => simp at he; subst he; simp [isCall]
  · simp at he; rcases he with rfl | rfl <;> simp [isCall]

theorem pipe_turn_events (os : OS) (pc k : Nat) (cmd : List CStr) (pipefd : Fd × Fd)
    (prev : Option Fd) :
    ∀ pe ∈ (if k < pc then [(Proc.shell, Ev.pipe)] else [])
        ++ (Proc.shell, Ev.fork) ::
          (if os.fork (.stage k) then
            (stage_child os pc k cmd pipefd prev).map (fun e => (Proc.stage k, e))
           else [])
        ++ (stage_parent pipefd prev).map (fun e => (Proc.shell, e)),
      isCall pe.2 = false ∧ ∀ t, pe.2 ≠ Ev.printf t := by
  intro pe hpe
  rcases List.mem_append.1 hpe with hpe | hpe
  · rcases List.mem_append.1 hpe with hpe | hpe
    · by_cases hk : k < pc
      · rw [if_pos hk, List.mem_singleton] at hpe; subst hpe; simp [isCall]
      · rw [if_neg hk] at hpe; simp at hpe
    · rcases List.mem_cons.1 hpe with rfl | hpe
      · simp [isCall]
      · by_cases hfk : os.fork (Proc.stage k) = true
        · rw [if_pos hfk] at hpe
          obtain ⟨e, he, rfl⟩ := List.mem_map.1 hpe
          exact stage_child_events os pc k cmd _ prev e he
        · rw [if_neg hfk] at hpe; simp at hpe
  · obtain ⟨e, he, rfl⟩ := List.mem_map.1 hpe
    exact stage_parent_events _ prev e he

/-- No process of a pipeline enters a built-in handler or calls `printf`. -/
theorem pipe_run_events (os : OS) (pc : Nat) (cmds : List (List CStr)) :
    ∀ (k : Nat) (pipefd : Fd × Fd) (prev : Option Fd),
      ∀ pe ∈ (pipe_run os pc cmds k pipefd prev).2,
        isCall pe.2 = false ∧ ∀ t, pe.2 ≠ Ev.printf t := by
  induction cmds with
  | nil => intro k pipefd prev pe hpe; simp [pipe_run] at hpe
  | cons cmd cmds ih =>
    intro k pipefd prev pe hpe
    rw [pipe_run] at hpe
    by_cases h1 : k < pc ∧ os.pipe k = false
    · rw [if_pos h1] at hpe
      simp only [List.mem_cons, List.mem_singleton, List.not_mem_nil, or_false] at hpe
      rcases hpe with rfl | rfl <;> simp [isCall]
    · rw [if_neg h1] at hpe
      simp only at hpe
      by_cases hw : wait_returns os k cmd = true
      · rw [if_pos hw] at hpe
        rcases List.mem_append.1 hpe with hpe | hpe
        · exact pipe_turn_events os pc k cmd _ prev pe hpe
        · exact ih _ _ _ pe hpe
      · rw [if_neg hw] at hpe
        exact pipe_turn_events os pc k cmd _ prev pe hpe

/-- The shell prints nothing while `handle_pipe` runs: no status message and
no blank line, whatever the stages do. -/
theorem handle_pipe_prints_nothing (os : OS) (args : Argv) (r : PipeEnd) (tr : Trace)
    (h : handle_pipe os args = some (r, tr)) : shell_output tr = [] := by
  simp only [handle_pipe] at h
  cases hs : pipe_split args [] [] with
  | none => rw [hs] at h; exact absurd h (by simp)
  | some commands =>
    rw [hs] at h
    simp only [Option.some.injEq] at h
    have hev := pipe_run_events os (commands.length - 1) commands 0
      (.indeterminate, .indeterminate) none
    rw [h] at hev
    simp only [shell_output, List.filterMap_eq_nil_iff]
    rintro ⟨p, e⟩ hpe
    have := (hev (p, e) hpe).2
    cases p <;> cases e <;> simp_all

/-- The report of `execute_command`: when the fork succeeds and the child's
status is collected, the shell prints the message for a nonzero exit code or
for a signal, nothing for exit code 0, and then one blank line. -/
theorem execute_command_report (os : OS) (args : Argv) (evs : List Ev) (st : WaitStatus)
    (hf : os.fork .child = true) (hc : execute_child os args = some (evs, st)) :
    ∃ tr, execute_command os args = some tr ∧
      shell_output tr = status_messages st := by
  refine ⟨_, by simp only [execute_command, hf, hc]; rfl, ?_⟩
  rw [← report_status_output st]
  have hchild : shell_output (evs.map (fun e => (Proc.child, e))) = [] := by
    simp [shell_output, List.filterMap_eq_nil_iff]
  show shell_output ([(Proc.shell, Ev.fork)] ++ evs.map (fun e => (Proc.child, e))
      ++ ([(Proc.shell, Ev.waitpid)] ++ (report_status st).map (fun e => (Proc.shell, e)))) = _
  simp only [shell_output, List.filterMap_append] at hchild ⊢
  rw [hchild]
  rfl

/-- C6 fails on the code for pipelines.  The line `x|y` is handed to
`handle_pipe` as a pipeline of one stage; its child fails in `execvp` and
exits with code 1, and the shell prints neither "failed with code 1" nor a
blank line.  The same holds for the two-stage pipeline `ls | false`, whose
last stage exits with code 1, while the single command `false` is reported
with the message and the blank line. -/
theorem C6_pipeline_status_is_not_reported :
    main_select ("x|y".toList ++ [NL]) = some (Branch.handle_pipe (mkArgs ["x|y".toList])) ∧
    main_iter demoOS ("x|y".toList ++ [NL])
      = some [(.shell, .fork), (.stage 0, .close .indeterminate),
              (.stage 0, .execvp (some "x|y".toList) ["x|y".toList]),
              (.stage 0, .perror "execvp failed"), (.stage 0, .exit 1),
              (.shell, .close .indeterminate), (.shell, .waitpid)] ∧
    (main_iter demoOS ("x|y".toList ++ [NL])).map shell_output = some [] ∧
    (handle_pipe demoOS (mkArgs ["ls".toList, BAR, "false".toList])).map
      (fun r => shell_output r.2) = some [] ∧
    (execute_command demoOS (mkArgs ["false".toList])).map shell_output
      = some ["mysh: Command failed with code 1\n", "\n"] := by
  decide

/-- The splitting loop of `handle_pipe` on a terminated vector that fits the
array `commands`: the rows are the runs of tokens between `|` tokens. -/
theorem pipe_split_spec (toks : List CStr) : ∀ (done : List (List CStr)) (cur : List CStr),
    cur.length + toks.length < MAX_ARGS → done.length + toks.count BAR < MAX_STAGES →
    pipe_split (mkArgs toks) done cur
      = some (done ++ (stages_of toks).modifyHead (fun l => cur ++ l)) := by
  induction toks with
  | nil =>
    intro done cur h1 _
    have h : cur.length < MAX_ARGS := by simpa using h1
    simp [mkArgs, pipe_split, h, stages_of, List.splitOnP_nil]
  | cons a rest ih =>
    intro done cur h1 h2
    have hcons : mkArgs (a :: rest) = some a :: mkArgs rest := rfl
    have hcur : cur.length < MAX_ARGS := by
      simp only [List.length_cons] at h1; omega
    obtain ⟨hd, tl, hsp⟩ : ∃ hd tl, stages_of rest = hd :: tl := by
      cases h : stages_of rest with
      | nil => exact absurd h (List.splitOnP_ne_nil _ _)
      | cons hd tl => exact ⟨hd, tl, rfl⟩
    by_cases hb : a = BAR
    · subst hb
      have hcount : (BAR :: rest).count BAR = rest.count BAR + 1 := by simp [List.count_cons]
      rw [hcount] at h2
      have hst : done.length + 1 < MAX_STAGES := by omega
      have h3 : (done ++ [cur]).length + rest.count BAR < MAX_STAGES := by
        simp only [List.length_append, List.length_singleton]
        omega
      have h4 : ([] : List CStr).length + rest.length < MAX_ARGS := by
        simp only [List.length_cons] at h1
        rw [List.length_nil]
        omega
      have e : stages_of (BAR :: rest) = [] :: stages_of rest := by
        simp [stages_of, List.splitOnP_cons]
      rw [hcons, pipe_split, if_pos rfl, if_pos ⟨hcur, hst⟩, ih _ _ h4 h3, e, hsp]
      simp
    · have h3 : (cur ++ [a]).length + rest.length < MAX_ARGS := by
        simp only [List.length_cons, List.length_append, List.length_nil] at h1 ⊢; omega
      have hcount : (a :: rest).count BAR = rest.count BAR := by simp [List.count_cons, hb]
      have h4 : done.length + rest.count BAR < MAX_STAGES := by
        rw [hcount] at h2; exact h2
      have e : stages_of (a :: rest) = (stages_of rest).modifyHead (List.cons a) := by
        simp [stages_of, List.splitOnP_cons, hb]
      rw [hcons, pipe_split, if_neg hb, if_pos hcur, ih _ _ h3 h4, e, hsp]
      simp

theorem splitOn_length (toks : List CStr) :
    (stages_of toks).length = toks.count BAR + 1 := by
  induction toks with
  | nil => simp [stages_of, List.splitOnP_nil]
  | cons a rest ih =>
    by_cases hb : a = BAR
    · subst hb
      have e : stages_of (BAR :: rest) = [] :: stages_of rest := by
        simp [stages_of, List.splitOnP_cons]
      have hcount : (BAR :: rest).count BAR = rest.count BAR + 1 := by simp [List.count_cons]
      rw [e, List.length_cons, ih, hcount]
    · have e : stages_of (a :: rest) = (stages_of rest).modifyHead (List.cons a) := by
        simp [stages_of, List.splitOnP_cons, hb]
      have hcount : (a :: rest).count BAR = rest.count BAR := by simp [List.count_cons, hb]
      rw [e, hcount, ← ih]
      cases stages_of rest <;> simp

theorem splitOn_no_bar (toks : List CStr) : ∀ st ∈ stages_of toks, BAR ∉ st := by
  induction toks with
  | nil => simp [stages_of, List.splitOnP_nil]
  | cons a rest ih =>
    by_cases hb : a = BAR
    · subst hb
      have e : stages_of (BAR :: rest) = [] :: stages_of rest := by
        simp [stages_of, List.splitOnP_cons]
      rw [e]
      intro st hst
      rcases List.mem_cons.1 hst with rfl | hst
      · simp
      · exact ih st hst
    · have e : stages_of (a :: rest) = (stages_of rest).modifyHead (List.cons a) := by
        simp [stages_of, List.splitOnP_cons, hb]
      rw [e]
      cases hsp : stages_of rest with
      | nil => simp
      | cons hd tl =>
        rw [hsp] at ih
        intro st hst
        simp only [List.modifyHead_cons, List.mem_cons] at hst
        rcases hst with rfl | hst
        · intro hm
          rcases List.mem_cons.1 hm with h | h
          · exact hb h.symm
          · exact ih hd (List.mem_cons_self _ _) h
        · exact ih st (List.mem_cons_of_mem _ hst)

theorem stage_execs_append (xs ys : Trace) :
    stage_execs (xs ++ ys) = stage_execs xs ++ stage_execs ys := by
  simp [stage_execs, List.filterMap_append]

theorem fork_count_append (xs ys : Trace) :
    fork_count (xs ++ ys) = fork_count xs + fork_count ys := by
  simp [fork_count, List.countP_append]

theorem stage_child_execs (os : OS) (pc k : Nat) (cmd : List CStr) (pipefd : Fd × Fd)
    (prev : Option Fd) :
    stage_execs ((stage_child os pc k cmd pipefd prev).map (fun e => (Proc.stage k, e)))
      = [(Proc.stage k, cmd)] ∧
    fork_count ((stage_child os pc k cmd pipefd prev).map (fun e => (Proc.stage k, e))) = 0 := by
  cases prev <;> by_cases h1 : k < pc <;> by_cases h2 : (os.execvp cmd.head? cmd).isNone = true <;>
    simp [stage_child, stage_execs, fork_count, h1, h2]

theorem stage_parent_execs (pipefd : Fd × Fd) (prev : Option Fd) :
    stage_execs ((stage_parent pipefd prev).map (fun e => (Proc.shell, e))) = [] ∧
    fork_count ((stage_parent pipefd prev).map (fun e => (Proc.shell, e))) = 0 := by
  cases prev <;> simp [stage_parent, stage_execs, fork_count]

theorem pipe_turn_execs (os : OS) (pc k : Nat) (cmd : List CStr) (pipefd : Fd × Fd)
    (prev : Option Fd) (hf : os.fork (.stage k) = true) :
    stage_execs ((if k < pc then [(Proc.shell, Ev.pipe)] else [])
        ++ (Proc.shell, Ev.fork) ::
          (if os.fork (.stage k) then
            (stage_child os pc k cmd pipefd prev).map (fun e => (Proc.stage k, e))
           else [])
        ++ (stage_parent pipefd prev).map (fun e => (Proc.shell, e))) = [(Proc.stage k, cmd)] ∧
    fork_count ((if k < pc then [(Proc.shell, Ev.pipe)] else [])
        ++ (Proc.shell, Ev.fork) ::
          (if os.fork (.stage k) then
            (stage_child os pc k cmd pipefd prev).map (fun e => (Proc.stage k, e))
           else [])
        ++ (stage_parent pipefd prev).map (fun e => (Proc.shell, e))) = 1 := by
  have hc := stage_child_execs os pc k cmd pipefd prev
  have hpar := stage_parent_execs pipefd prev
  have hx1 : stage_execs (if k < pc then [(Proc.shell, Ev.pipe)] else []) = [] ∧
      fork_count (if k < pc then [(Proc.shell, Ev.pipe)] else []) = 0 := by
    by_cases hk : k < pc <;> simp [hk, stage_execs, fork_count]
  have hcons : ∀ (l : Trace), stage_execs ((Proc.shell, Ev.fork) :: l) = stage_execs l ∧
      fork_count ((Proc.shell, Ev.fork) :: l) = fork_count l + 1 := by
    intro l; simp [stage_execs, fork_count]
  rw [if_pos hf]
  constructor
  · rw [stage_execs_append, stage_execs_append, (hcons _).1, hx1.1, hc.1, hpar.1]
    rfl
  · rw [fork_count_append, fork_count_append, (hcons _).2, hx1.2, hc.2, hpar.2]

/-- When every `pipe` and `fork` call succeeds, the loop of `handle_pipe`
forks the stages one after the other, each child calling `execvp` with its
stage: the stages run are an initial run of the stages given, the first one
is always among them, and all of them are run, the loop ending with the value
1, when every wait returns. -/
theorem pipe_run_spec (os : OS) (pc : Nat) (hp : ∀ k, os.pipe k = true)
    (hf : ∀ p, os.fork p = true) (cmds : List (List CStr)) :
    ∀ (k : Nat) (pipefd : Fd × Fd) (prev : Option Fd),
      fork_count (pipe_run os pc cmds k pipefd prev).2 ≤ cmds.length ∧
      (cmds ≠ [] → 1 ≤ fork_count (pipe_run os pc cmds k pipefd prev).2) ∧
      stage_execs (pipe_run os pc cmds k pipefd prev).2
        = (numbered k cmds).take (fork_count (pipe_run os pc cmds k pipefd prev).2) ∧
      ((∀ j, os.stage_exits j = true) →
        (pipe_run os pc cmds k pipefd prev).1 = .returned 1 ∧
        fork_count (pipe_run os pc cmds k pipefd prev).2 = cmds.length) := by
  induction cmds with
  | nil =>
    intro k pipefd prev
    exact ⟨Nat.le_refl _, fun h => absurd rfl h, rfl, fun _ => ⟨rfl, rfl⟩⟩
  | cons cmd cmds ih =>
    intro k pipefd prev
    have h1 : ¬ (k < pc ∧ os.pipe k = false) := by simp [hp k]
    obtain ⟨t1, t2⟩ := pipe_turn_execs os pc k cmd
      (if k < pc then (Fd.pipeRd k, Fd.pipeWr k) else pipefd) prev (hf _)
    obtain ⟨i1, _, i3, i4⟩ := ih (k + 1) (if k < pc then (Fd.pipeRd k, Fd.pipeWr k) else pipefd)
      (some (if k < pc then (Fd.pipeRd k, Fd.pipeWr k) else pipefd).1)
    rw [pipe_run, if_neg h1]
    by_cases hw : wait_returns os k cmd = true
    · simp only [if_pos hw]
      rw [fork_count_append, stage_execs_append, t1, t2, i3]
      refine ⟨?_, fun _ => by omega, ?_, fun hall => ⟨(i4 hall).1, ?_⟩⟩
      · simp only [List.length_cons]; omega
      · rw [Nat.add_comm 1, numbered, List.take_succ_cons]
        rfl
      · rw [(i4 hall).2, List.length_cons]; omega
    · simp only [if_neg hw]
      rw [t1, t2]
      refine ⟨?_, fun _ => Nat.le_refl _, ?_, fun hall => ?_⟩
      · simp only [List.length_cons]; omega
      · rfl
      · exfalso
        apply hw
        simp [wait_returns, hall k]

/-- The wait inside the loop at work: when the first stage of `ls | wc` does
not terminate while the shell waits for it, `handle_pipe` forks that stage
only and does not return. -/
theorem pipe_stage_that_stays_stops_the_loop :
    (handle_pipe stuckOS (mkArgs ["ls".toList, BAR, "wc".toList])).map (fun r => r.1)
      = some PipeEnd.waiting ∧
    (handle_pipe stuckOS (mkArgs ["ls".toList, BAR, "wc".toList])).map
      (fun r => stage_execs r.2) = some [(.stage 0, ["ls".toList])] ∧
    (handle_pipe stuckOS (mkArgs ["ls".toList, BAR, "wc".toList])).map
      (fun r => fork_count r.2) = some 1 := by
  decide

/-- C9, as the code has it: for every token sequence that fits the arrays
(fewer than `MAX_ARGS` tokens, fewer than `MAX_STAGES` tokens `|`), the stages
`handle_pipe` builds are, in order, exactly the runs of tokens lying between
`|` tokens, the `|` tokens discarded: one stage more than there are `|` tokens,
no `|` inside a stage, and the stages joined with `|` give the sequence back.
When every `pipe` and `fork` call succeeds, the stages whose children call
`execvp` are, in order, an initial run of these stages, one forked child
each, the first stage always among them whether or not a stage is empty; and
when every stage terminates while the shell waits for it, all stages are run
and `handle_pipe` returns 1. -/
theorem C9_stages_are_runs_between_bars_run_in_order (os : OS) (toks : List CStr)
    (hcap : toks.length < MAX_ARGS) (hbars : toks.count BAR < MAX_STAGES)
    (hp : ∀ k, os.pipe k = true) (hf : ∀ p, os.fork p = true) :
    pipe_split (mkArgs toks) [] [] = some (stages_of toks) ∧
    (stages_of toks).length = toks.count BAR + 1 ∧
    (∀ st ∈ stages_of toks, BAR ∉ st) ∧
    [BAR].intercalate (stages_of toks) = toks ∧
    ∃ r tr, handle_pipe os (mkArgs toks) = some (r, tr) ∧
      1 ≤ fork_count tr ∧ fork_count tr ≤ (stages_of toks).length ∧
      stage_execs tr = (numbered 0 (stages_of toks)).take (fork_count tr) ∧
      ((∀ k, os.stage_exits k = true) →
        r = PipeEnd.returned 1 ∧ fork_count tr = (stages_of toks).length ∧
        stage_execs tr = numbered 0 (stages_of toks)) := by
  have hs := pipe_split_spec toks [] [] (by simpa using hcap) (by simpa using hbars)
  have hm : (stages_of toks).modifyHead (fun l => [] ++ l) = stages_of toks := by
    cases stages_of toks <;> simp
  rw [List.nil_append, hm] at hs
  have hne : stages_of toks ≠ [] := List.splitOnP_ne_nil _ _
  have hnum : ∀ (cmds : List (List CStr)) (k : Nat), (numbered k cmds).length = cmds.length := by
    intro cmds
    induction cmds with
    | nil => intro k; rfl
    | cons c cs ih => intro k; simp only [numbered, List.length_cons, ih]
  obtain ⟨r1, r2, r3, r4⟩ := pipe_run_spec os ((stages_of toks).length - 1) hp hf (stages_of toks)
    0 (.indeterminate, .indeterminate) none
  refine ⟨hs, splitOn_length toks, splitOn_no_bar toks, @List.intercalate_splitOn _ toks BAR _,
    (pipe_run os ((stages_of toks).length - 1) (stages_of toks) 0
      (.indeterminate, .indeterminate) none).1,
    (pipe_run os ((stages_of toks).length - 1) (stages_of toks) 0
      (.indeterminate, .indeterminate) none).2, ?_, r2 hne, r1, r3, fun hall => ?_⟩
  · simp only [handle_pipe, hs]
  · refine ⟨(r4 hall).1, (r4 hall).2, ?_⟩
    rw [r3, (r4 hall).2, ← hnum (stages_of toks) 0, List.take_length]

/-- C9 at the line `x|y | sort -r | wc`, which `main` hands to `handle_pipe`. -/
theorem C9_stages_are_runs_between_bars_run_in_order_witness :
    main_select ("x|y | sort -r | wc".toList ++ [NL])
      = some (Branch.handle_pipe
          (mkArgs ["x|y".toList, BAR, "sort".toList, "-r".toList, BAR, "wc".toList])) ∧
    stages_of ["x|y".toList, BAR, "sort".toList, "-r".toList, BAR, "wc".toList]
      = [["x|y".toList], ["sort".toList, "-r".toList], ["wc".toList]] ∧
    ∃ r tr, handle_pipe demoOS
        (mkArgs ["x|y".toList, BAR, "sort".toList, "-r".toList, BAR, "wc".toList])
          = some (r, tr) ∧
      1 ≤ fork_count tr ∧
      fork_count tr
        ≤ (stages_of ["x|y".toList, BAR, "sort".toList, "-r".toList, BAR, "wc".toList]).length ∧
      stage_execs tr = (numbered 0
        (stages_of ["x|y".toList, BAR, "sort".toList, "-r".toList, BAR, "wc".toList])).take
          (fork_count tr) ∧
      ((∀ k, demoOS.stage_exits k = true) →
        r = PipeEnd.returned 1 ∧
        fork_count tr
          = (stages_of ["x|y".toList, BAR, "sort".toList, "-r".toList, BAR, "wc".toList]).length ∧
        stage_execs tr = numbered 0
          (stages_of ["x|y".toList, BAR, "sort".toList, "-r".toList, BAR, "wc".toList])) :=
  ⟨by decide, by decide,
   (C9_stages_are_runs_between_bars_run_in_order demoOS
      ["x|y".toList, BAR, "sort".toList, "-r".toList, BAR, "wc".toList]
      (by decide) (by decide) (fun _ => rfl) (fun _ => rfl)).2.2.2.2⟩

/-- C9 as stated fails: `main` hands the line `x|y |` to `handle_pipe`; its
last stage is empty, yet nothing is treated as malformed: the shell forks, and
the child of the first stage calls `execvp` with `x|y`. -/
theorem C9_pipeline_with_empty_stage_is_spawned :
    main_select ("x|y |".toList ++ [NL])
      = some (Branch.handle_pipe (mkArgs ["x|y".toList, BAR])) ∧
    stages_of ["x|y".toList, BAR] = [["x|y".toList], []] ∧
    (main_iter demoOS ("x|y |".toList ++ [NL])).map
      (fun tr => decide ((Proc.shell, Ev.fork) ∈ tr ∧
        (Proc.stage 0, Ev.execvp (some "x|y".toList) ["x|y".toList]) ∈ tr)) = some true ∧
    (main_iter demoOS ("x|y |".toList ++ [NL])).map (fun tr => decide (1 ≤ fork_count tr))
      = some true := by
  decide

/-! ## C5: built-in commands -/

/-- A line whose first token is a built-in name makes `main` call the handler
of that name with the whole token sequence. -/
theorem main_select_builtin (line : List Char) (b : Builtin) (rest : List CStr)
    (h : tokens line = b.name :: rest) (hcap : (tokens line).length < MAX_ARGS) :
    main_select line = some (Branch.builtin b (b.name :: rest)) := by
  have hcap1 : ¬ MAX_ARGS ≤ (tokens line).length := Nat.not_le.2 hcap
  unfold main_select
  rw [if_neg hcap1, h]
  have e1 : ¬ ("cd".toList = "exit".toList) := by decide
  have e2 : ¬ ("pwd".toList = "exit".toList) := by decide
  have e3 : ¬ ("pwd".toList = "cd".toList) := by decide
  have e4 : ¬ ("which".toList = "exit".toList) := by decide
  have e5 : ¬ ("which".toList = "cd".toList) := by decide
  have e6 : ¬ ("which".toList = "pwd".toList) := by decide
  cases b <;> simp only [Builtin.name, if_neg e1, if_neg e2, if_neg e3, if_neg e4, if_neg e5,
    if_neg e6, if_true]

theorem which_search_no_spawn (os : OS) (name : CStr) (dirs : List CStr) :
    ∀ e ∈ which_search os name dirs, isSpawn e = false := by
  induction dirs with
  | nil => intro e he; simp [which_search] at he; subst he; rfl
  | cons d dirs ih =>
    intro e he
    simp only [which_search] at he
    split_ifs at he
    · simp at he; rcases he with rfl | rfl <;> rfl
    · rcases List.mem_cons.1 he with rfl | he
      · rfl
      · exact ih e he

/-- No built-in handler forks or calls `execvp`. -/
theorem builtin_no_spawn (os : OS) (b : Builtin) (argv : List CStr) :
    ∀ e ∈ builtin_functions os b argv, isSpawn e = false := by
  intro e he
  rcases List.mem_cons.1 he with rfl | he
  · rfl
  · cases b with
    | cd =>
      simp only [cd_command] at he
      cases h : argv[1]? with
      | none => rw [h] at he; simp at he; subst he; rfl
      | some p =>
        rw [h] at he
        simp only at he
        split_ifs at he
        · simp at he; subst he; rfl
        · simp at he; rcases he with rfl | rfl <;> rfl
    | pwd =>
      simp only [pwd_command] at he
      cases h : os.getcwd with
      | none => rw [h] at he; simp at he; rcases he with rfl | rfl <;> rfl
      | some p => rw [h] at he; simp at he; rcases he with rfl | rfl <;> rfl
    | exit =>
      simp only [exit_command] at he
      cases h : argv[1]? with
      | none => rw [h] at he; simp at he; rcases he with rfl | rfl <;> rfl
      | some p =>
        rw [h] at he
        simp only [List.mem_append, List.mem_cons, List.mem_singleton, List.mem_map,
          List.not_mem_nil, or_false] at he
        rcases he with (rfl | ⟨a, _, rfl⟩) | rfl | rfl <;> rfl
    | which =>
      simp only [which_command] at he
      cases h : argv[1]? with
      | none => rw [h] at he; simp at he; subst he; rfl
      | some p => rw [h] at he; exact which_search_no_spawn os p _ e he

theorem store_head (args args1 : Argv) (i : Nat) (v : Option CStr) (hi : 1 ≤ i)
    (h : store args i v = some args1) : args1.head? = args.head? := by
  unfold store at h
  split_ifs at h with h1 h2
  · simp only [Option.some.injEq] at h
    subst h
    cases args with
    | nil => rfl
    | cons x xs =>
      obtain ⟨j, rfl⟩ : ∃ j, i = j + 1 := ⟨i - 1, by omega⟩
      rfl
  · simp only [Option.some.injEq] at h
    subst h
    cases args with
    | nil => simp at h2; omega
    | cons x xs => rfl

theorem store_matches_head (ms : List CStr) : ∀ (args args1 : Argv) (i : Nat), 1 ≤ i →
    store_matches args i ms = some args1 → args1.head? = args.head? := by
  induction ms with
  | nil => intro args args1 i hi h; exact store_head args args1 i none hi h
  | cons m ms ih =>
    intro args args1 i hi h
    simp only [store_matches] at h
    cases hs : store args i (some m) with
    | none => rw [hs] at h; simp at h
    | some a2 =>
      rw [hs] at h
      simp only [Option.bind] at h
      rw [ih a2 args1 (i + 1) (by omega) h, store_head args a2 i _ hi hs]

/-- From index 1 on the loop of `expand_wildcards` leaves `args[0]` alone, and
the calls it adds are `glob` and `perror`. -/
theorem expand_loop_tail (os : OS) (fuel : Nat) : ∀ (i : Nat) (args : Argv) (evs0 : List Ev)
    (r : Nat) (args1 : Argv) (evs : List Ev), 1 ≤ i →
    expand_loop os fuel i args evs0 = some (r, args1, evs) →
    args1.head? = args.head? ∧ ∀ e ∈ evs, e ∈ evs0 ∨ isCall e = false := by
  induction fuel with
  | zero => intro i args evs0 r args1 evs _ h; simp [expand_loop] at h
  | succ fuel ih =>
    intro i args evs0 r args1 evs hi h
    rw [expand_loop] at h
    cases hg : args[i]? with
    | none => rw [hg] at h; simp at h
    | some slot =>
      rw [hg] at h
      cases slot with
      | none =>
        simp only [Option.some.injEq, Prod.mk.injEq] at h
        obtain ⟨_, rfl, rfl⟩ := h
        exact ⟨rfl, fun e he => Or.inl he⟩
      | some a =>
        simp only at h
        by_cases hs : '*' ∈ a
        · rw [if_pos hs] at h
          cases hgl : os.glob a with
          | matched ps =>
            rw [hgl] at h
            simp only at h
            cases hst : store_matches args i ps with
            | none => rw [hst] at h; simp at h
            | some a2 =>
              rw [hst] at h
              obtain ⟨h1, h2⟩ := ih (i + 1) a2 _ r args1 evs (by omega) h
              refine ⟨by rw [h1, store_matches_head ps args a2 i hi hst], fun e he => ?_⟩
              rcases h2 e he with h3 | h3
              · rcases List.mem_append.1 h3 with h4 | h4
                · exact Or.inl h4
                · simp at h4; subst h4; exact Or.inr rfl
              · exact Or.inr h3
          | noMatch =>
            rw [hgl] at h
            obtain ⟨h1, h2⟩ := ih (i + 1) _ _ r args1 evs (by omega) h
            refine ⟨?_, fun e he => ?_⟩
            · rw [h1]
              cases args with
              | nil => rfl
              | cons x xs =>
                obtain ⟨j, rfl⟩ : ∃ j, i = j + 1 := ⟨i - 1, by omega⟩
                rfl
            · rcases h2 e he with h3 | h3
              · rcases List.mem_append.1 h3 with h4 | h4
                · exact Or.inl h4
                · simp at h4; subst h4; exact Or.inr rfl
              · exact Or.inr h3
          | failed =>
            rw [hgl] at h
            simp only [Option.some.injEq, Prod.mk.injEq] at h
            obtain ⟨_, rfl, rfl⟩ := h
            refine ⟨rfl, fun e he => ?_⟩
            rcases List.mem_append.1 he with h4 | h4
            · exact Or.inl h4
            · simp at h4; rcases h4 with rfl | rfl <;> exact Or.inr rfl
        · rw [if_neg hs] at h
          exact ih (i + 1) args evs0 r args1 evs (by omega) h

theorem handle_redirection_no_call (os : OS) (args : Argv) (ret : Nat) (args1 : Argv)
    (evs : List Ev) (h : handle_redirection os args = some (ret, args1, evs)) :
    ∀ e ∈ evs, isCall e = false := by
  have hin : ∀ f, ∀ e ∈ (redirect_input os f).2, isCall e = false := by
    intro f e he
    cases f with
    | none => simp [redirect_input] at he
    | some f =>
      simp only [redirect_input] at he
      split_ifs at he <;> simp at he <;> rcases he with rfl | rfl | rfl <;> rfl
  have hout : ∀ f, ∀ e ∈ (redirect_output os f).2, isCall e = false := by
    intro f e he
    cases f with
    | none => simp [redirect_output] at he
    | some f =>
      simp only [redirect_output] at he
      split_ifs at he <;> simp at he <;> rcases he with rfl | rfl | rfl <;> rfl
  simp only [handle_redirection] at h
  rcases hs : redir_scan args none none with _ | ⟨a1, i, o⟩
  · rw [hs] at h; exact absurd h (by simp)
  · rw [hs] at h
    simp only at h
    rcases hi : redirect_input os i with ⟨bi, ei⟩
    rcases ho : redirect_output os o with ⟨bo, eo⟩
    have hin1 := hin i
    have hout1 := hout o
    rw [hi] at h hin1
    rw [ho] at hout1
    intro e he
    cases bi with
    | false =>
      simp only [Option.some.injEq, Prod.mk.injEq] at h
      obtain ⟨_, _, rfl⟩ := h
      exact hin1 e he
    | true =>
      simp only [ho] at h
      cases bo <;>
      · simp only [Option.some.injEq, Prod.mk.injEq] at h
        obtain ⟨_, _, rfl⟩ := h
        rcases List.mem_append.1 he with he | he
        · exact hin1 e he
        · exact hout1 e he

/-- The child of `execute_command` enters no built-in handler when `args[0]`
is no built-in name. -/
theorem execute_child_no_call (os : OS) (a0 : CStr) (rest : Argv) (cevs : List Ev)
    (st : WaitStatus) (hb : find_builtin a0 = none)
    (h : execute_child os (some a0 :: rest) = some (cevs, st)) :
    ∀ e ∈ cevs, isCall e = false := by
  simp only [execute_child, hb] at h
  cases hr : handle_redirection os (some a0 :: rest) with
  | none => rw [hr] at h; simp at h
  | some res =>
    obtain ⟨ret, args1, evs⟩ := res
    have hnc := handle_redirection_no_call os _ ret args1 evs hr
    rw [hr] at h
    intro e he
    cases ret with
    | zero =>
      simp only [Option.some.injEq, Prod.mk.injEq] at h
      obtain ⟨rfl, _⟩ := h
      rcases List.mem_cons.1 he with rfl | he
      · rfl
      · rcases List.mem_append.1 he with he | he
        · exact hnc e he
        · simp at he; subst he; rfl
    | succ n =>
      simp only at h
      cases hh : args1.head? with
      | none => rw [hh] at h; simp at h
      | some file =>
        rw [hh] at h
        simp only at h
        cases hx : os.execvp file (argvOf args1) with
        | none =>
          rw [hx] at h
          simp only [Option.some.injEq, Prod.mk.injEq] at h
          obtain ⟨rfl, _⟩ := h
          rcases List.mem_cons.1 he with rfl | he
          · rfl
          · rcases List.mem_append.1 he with he | he
            · exact hnc e he
            · simp at he; rcases he with rfl | rfl | rfl <;> rfl
        | some st1 =>
          rw [hx] at h
          simp only [Option.some.injEq, Prod.mk.injEq] at h
          obtain ⟨rfl, _⟩ := h
          rcases List.mem_cons.1 he with rfl | he
          · rfl
          · rcases List.mem_append.1 he with he | he
            · exact hnc e he
            · simp at he; subst he; rfl

theorem report_status_no_call (st : WaitStatus) : ∀ e ∈ report_status st, isCall e = false := by
  intro e he
  cases st with
  | exited code =>
    simp only [report_status, List.mem_append] at he
    rcases he with he | he
    · split_ifs at he
      · simp at he; subst he; rfl
      · simp at he
    · simp at he; rcases he with rfl | rfl <;> rfl
  | signaled sig =>
    simp [report_status] at he
    rcases he with rfl | rfl | rfl <;> rfl

/-- In a trace of `execute_command` a built-in handler is entered only by the
child. -/
theorem execute_command_calls (os : OS) (args : Argv) (tr : Trace)
    (h : execute_command os args = some tr) :
    ∀ p e, (p, e) ∈ tr → isCall e = true →
      p = Proc.child ∧ ∃ cevs st, execute_child os args = some (cevs, st) ∧ e ∈ cevs := by
  intro p e hpe hc
  simp only [execute_command] at h
  by_cases hf : os.fork .child = false
  · rw [if_pos hf] at h
    simp only [Option.some.injEq] at h
    subst h
    simp at hpe
    rcases hpe with ⟨_, rfl⟩ | ⟨_, rfl⟩ <;> simp [isCall] at hc
  · rw [if_neg hf] at h
    cases hx : execute_child os args with
    | none => rw [hx] at h; simp at h
    | some res =>
      obtain ⟨cevs, st⟩ := res
      rw [hx] at h
      simp only [Option.some.injEq] at h
      subst h
      rcases List.mem_append.1 hpe with hpe | hpe
      · rcases List.mem_cons.1 hpe with hpe | hpe
        · simp only [Prod.mk.injEq] at hpe
          obtain ⟨_, rfl⟩ := hpe
          simp [isCall] at hc
        · obtain ⟨e1, he1, heq⟩ := List.mem_map.1 hpe
          simp only [Prod.mk.injEq] at heq
          obtain ⟨rfl, rfl⟩ := heq
          exact ⟨rfl, cevs, st, rfl, he1⟩
      · rcases List.mem_cons.1 hpe with hpe | hpe
        · simp only [Prod.mk.injEq] at hpe
          obtain ⟨_, rfl⟩ := hpe
          simp [isCall] at hc
        · obtain ⟨e1, he1, heq⟩ := List.mem_map.1 hpe
          simp only [Prod.mk.injEq] at heq
          obtain ⟨_, rfl⟩ := heq
          rw [report_status_no_call st e1 he1] at hc
          exact absurd hc (by simp)

/-- C5, as the code has it: when the first token is one of `cd`, `pwd`,
`exit`, `which`, `main` runs the handler of that name in the shell's own
process on the whole token sequence, whatever the other tokens are, and makes
no `fork` and no `execvp` call.  When the first token is none of these names,
no handler runs in the shell's own process; a handler can then only run in the
child forked by `execute_command`, and only if the first token contains `*`
(wildcard expansion can replace it by a built-in name). -/
theorem C5_builtins_run_in_the_shell_process (os : OS) (line : List Char) (a0 : CStr)
    (rest : List CStr) (h : tokens line = a0 :: rest) (hcap : (tokens line).length < MAX_ARGS) :
    (∀ b : Builtin, a0 = b.name →
      main_iter os line
        = some ((builtin_functions os b (a0 :: rest)).map (fun e => (Proc.shell, e))) ∧
      Ev.call b (a0 :: rest) ∈ builtin_functions os b (a0 :: rest) ∧
      ∀ e ∈ builtin_functions os b (a0 :: rest), isSpawn e = false) ∧
    (find_builtin a0 = none →
      ∀ tr, main_iter os line = some tr →
        ∀ p e, (p, e) ∈ tr → isCall e = true → p = Proc.child ∧ '*' ∈ a0) := by
  constructor
  · intro b hb
    subst hb
    refine ⟨?_, List.mem_cons_self _ _, builtin_no_spawn os b _⟩
    simp only [main_iter, main_select_builtin line b rest h hcap]
  · intro hb tr htr p e hpe hc
    obtain ⟨hp1, hp2⟩ := main_select_pipe_iff line a0 rest h hcap hb
    by_cases hbar : '|' ∈ a0
    · exfalso
      simp only [main_iter, hp1.2 hbar] at htr
      cases hh : handle_pipe os (mkArgs (a0 :: rest)) with
      | none => rw [hh] at htr; simp at htr
      | some res =>
        rw [hh] at htr
        simp only [Option.map_some', Option.some.injEq] at htr
        simp only [handle_pipe] at hh
        cases hs : pipe_split (mkArgs (a0 :: rest)) [] [] with
        | none => rw [hs] at hh; simp at hh
        | some commands =>
          rw [hs] at hh
          simp only [Option.some.injEq] at hh
          have hev := pipe_run_events os (commands.length - 1) commands 0
            (.indeterminate, .indeterminate) none (p, e) (by rw [hh, htr]; exact hpe)
          rw [hev.1] at hc
          exact absurd hc (by simp)
    · simp only [main_iter, hp2.2 hbar] at htr
      cases hx : expand_wildcards os (mkArgs (a0 :: rest)) with
      | none => rw [hx] at htr; simp at htr
      | some res =>
        obtain ⟨r, args1, evs⟩ := res
        rw [hx] at htr
        simp only at htr
        cases hec : execute_command os args1 with
        | none => rw [hec] at htr; simp at htr
        | some tr1 =>
          rw [hec] at htr
          simp only [Option.map_some', Option.some.injEq] at htr
          subst htr
          have hmk : mkArgs (a0 :: rest) = some a0 :: mkArgs rest := rfl
          rcases List.mem_append.1 hpe with hpe | hpe
          · -- a call made by `expand_wildcards`
            exfalso
            obtain ⟨e1, he1, heq⟩ := List.mem_map.1 hpe
            simp only [Prod.mk.injEq] at heq
            obtain ⟨_, rfl⟩ := heq
            have hnc : isCall e1 = false := by
              rw [expand_wildcards, hmk, expand_loop] at hx
              simp only [List.getElem?_cons_zero] at hx
              by_cases hs : '*' ∈ a0
              · rw [if_pos hs] at hx
                cases hgl : os.glob a0 with
                | matched ps =>
                  rw [hgl] at hx
                  simp only at hx
                  cases hst : store_matches (some a0 :: mkArgs rest) 0 ps with
                  | none => rw [hst] at hx; simp at hx
                  | some a2 =>
                    rw [hst] at hx
                    rcases (expand_loop_tail os _ _ _ _ _ _ _ (le_refl 1) hx).2 e1 he1 with h3 | h3
                    · simp at h3; subst h3; rfl
                    · exact h3
                | noMatch =>
                  rw [hgl] at hx
                  rcases (expand_loop_tail os _ _ _ _ _ _ _ (le_refl 1) hx).2 e1 he1 with h3 | h3
                  · simp at h3; subst h3; rfl
                  · exact h3
                | failed =>
                  rw [hgl] at hx
                  simp only [Option.some.injEq, Prod.mk.injEq] at hx
                  obtain ⟨_, _, rfl⟩ := hx
                  simp at he1
                  rcases he1 with rfl | rfl <;> rfl
              · rw [if_neg hs] at hx
                rcases (expand_loop_tail os _ _ _ _ _ _ _ (le_refl 1) hx).2 e1 he1 with h3 | h3
                · simp at h3
                · exact h3
            rw [hnc] at hc
            exact absurd hc (by simp)
          · -- a call made while `execute_command` runs
            obtain ⟨hp, cevs, st, hch, hmem⟩ := execute_command_calls os args1 tr1 hec p e hpe hc
            refine ⟨hp, ?_⟩
            by_contra hs
            rw [expand_wildcards, hmk, expand_loop] at hx
            simp only [List.getElem?_cons_zero, if_neg hs] at hx
            have hhead := (expand_loop_tail os _ _ _ _ _ _ _ (le_refl 1) hx).1
            cases args1 with
            | nil => simp at hhead
            | cons x xs =>
              simp only [List.head?_cons, Option.some.injEq] at hhead
              subst hhead
              rw [execute_child_no_call os a0 xs cevs st hb hch e hmem] at hc
              exact absurd hc (by simp)

/-- C5 at the line `cd /tmp | x`. -/
theorem C5_builtins_run_in_the_shell_process_witness :
    main_iter demoOS ("cd /tmp | x".toList ++ [NL])
      = some ((builtin_functions demoOS .cd ["cd".toList, "/tmp".toList, BAR, "x".toList]).map
          (fun e => (Proc.shell, e))) ∧
    ∀ e ∈ builtin_functions demoOS .cd ["cd".toList, "/tmp".toList, BAR, "x".toList],
      isSpawn e = false :=
  ⟨(((C5_builtins_run_in_the_shell_process demoOS ("cd /tmp | x".toList ++ [NL]) "cd".toList
      ["/tmp".toList, BAR, "x".toList] (by decide) (by decide)).1 .cd rfl).1),
   (((C5_builtins_run_in_the_shell_process demoOS ("cd /tmp | x".toList ++ [NL]) "cd".toList
      ["/tmp".toList, BAR, "x".toList] (by decide) (by decide)).1 .cd rfl).2.2)⟩

/-- C5 as stated fails in its second half: the first token of the line `p*`
is no built-in name, yet in a directory that holds a file `pwd` the pattern
expands to `pwd`, and the child forked by `execute_command` runs the handler
`pwd_command`. -/
theorem C5_expanded_first_token_runs_builtin_in_child :
    tokens ("p*".toList ++ [NL]) = ["p*".toList] ∧
    find_builtin "p*".toList = none ∧
    (main_iter demoOS ("p*".toList ++ [NL])).map
      (fun tr => decide ((Proc.child, Ev.call .pwd ["pwd".toList]) ∈ tr)) = some true := by
  decide

end MySh
